import Mathlib

/-!
A verification development for `src/p3/tc.c`, a multi-threaded four-way
traffic-intersection controller.

The pure helper functions of the C file (`dir_index`, `get_turn`,
`get_quads`, the sorting loop of `lock_quads`, the crossing durations of
`CrossIntersection`) are embedded directly as Lean functions.  The
concurrent behaviour (per-car threads interleaving `ArriveIntersection`,
`CrossIntersection`, `ExitIntersection` over the shared quadrant mutexes,
head-of-line semaphores and the `turn_lock`/`turn_cv` flow state) is
embedded as an explicit interleaving transition system: each car runs a
fixed script of atomic actions, one action per critical section or
blocking point of the C code, and the scheduler picks any enabled car at
every step.  Machine integers are modelled as `Int`/`Nat` (no value in
this program ever approaches an overflow boundary: counters are bounded
by the number of cars, quadrant indices by 4).
-/

namespace TC

/-! ## Pure functions of tc.c -/

/-- Turn types, from `typedef enum {LEFT_T, STRAIGHT_T, RIGHT_T} turn_t;`. -/
inductive turn_t where
  | LEFT_T
  | STRAIGHT_T
  | RIGHT_T
deriving DecidableEq, Repr

/-- `struct _directions`: starting direction and target direction,
as the ASCII characters used by the program. -/
structure directions where
  dir_original : Char
  dir_target : Char
deriving DecidableEq, Repr

/-- Car information (`car_t`).  The C struct also carries
`double arrival_time`; it only feeds a `usleep` before the protocol
starts and never enters the control logic, so the model folds that sleep
into the first script action and omits the floating-point field. -/
structure car_t where
  cid : Nat
  dirs : directions
  index : Nat
deriving DecidableEq, Repr

/-- Default car used for out-of-range list lookups. -/
def cdef : car_t := { cid := 0, dirs := ⟨'?', '?'⟩, index := 0 }

/-- `enum {DIR_N = 0, DIR_E = 1, DIR_S = 2, DIR_W = 3}` and
`int dir_index(char d)`: map the ASCII direction to the internal index,
`-1` for anything else (the C `switch`). -/
def dir_index (d : Char) : Int :=
  if d = '^' then 0
  else if d = '>' then 1
  else if d = 'v' then 2
  else if d = '<' then 3
  else -1

/-- A direction character accepted by `dir_index`. -/
def validDir (d : Char) : Prop := dir_index d ≠ -1

instance (d : Char) : Decidable (validDir d) := by
  unfold validDir; infer_instance

/-- `turn_t get_turn(directions *d)`, clause for clause. -/
def get_turn (d : directions) : turn_t :=
  let o := d.dir_original
  let t := d.dir_target
  if o = t then .STRAIGHT_T
  else if o = '^' ∧ t = '>' then .RIGHT_T
  else if o = '^' ∧ t = '<' then .LEFT_T
  else if o = 'v' ∧ t = '<' then .RIGHT_T
  else if o = 'v' ∧ t = '>' then .LEFT_T
  else if o = '>' ∧ t = 'v' then .RIGHT_T
  else if o = '>' ∧ t = '^' then .LEFT_T
  else if o = '<' ∧ t = '^' then .RIGHT_T
  else if o = '<' ∧ t = 'v' then .LEFT_T
  else .STRAIGHT_T

/-- `int get_quads(car_t *c, int q[])`: the list of quadrant indices the
car pushes into `q[]`, in push order (quad 0 = NW, 1 = NE, 2 = SE,
3 = SW).  The C function returns the count `n`; here the list carries
both the contents and the count (`.length`). -/
def get_quads (d : directions) : List Nat :=
  if d.dir_original = '^' then
    if get_turn d = .RIGHT_T then [1]
    else if get_turn d = .STRAIGHT_T then [1, 2]
    else [1, 2, 3]
  else if d.dir_original = '>' then
    if get_turn d = .RIGHT_T then [2]
    else if get_turn d = .STRAIGHT_T then [2, 3]
    else [2, 3, 0]
  else if d.dir_original = 'v' then
    if get_turn d = .RIGHT_T then [3]
    else if get_turn d = .STRAIGHT_T then [3, 0]
    else [3, 0, 1]
  else if d.dir_original = '<' then
    if get_turn d = .RIGHT_T then [0]
    else if get_turn d = .STRAIGHT_T then [0, 1]
    else [0, 1, 2]
  else []

/-- One iteration of the outer loop of the sort in `lock_quads`: given the
current value of `q[i]` (`c`) and the tail `q[i+1..n)`, scan `j = i+1..n`
and swap whenever `q[j] < q[i]`.  Returns the final `q[i]` (the minimum)
and the rewritten tail, exactly mirroring the in-place swaps. -/
def pass1 : Nat → List Nat → Nat × List Nat
  | c, [] => (c, [])
  | c, y :: ys =>
    if y < c then
      let r := pass1 y ys
      (r.1, c :: r.2)
    else
      let r := pass1 c ys
      (r.1, y :: r.2)

theorem pass1_length (c : Nat) (l : List Nat) : (pass1 c l).2.length = l.length := by
  induction l generalizing c with
  | nil => rfl
  | cons y ys ih =>
    unfold pass1
    by_cases h : y < c <;> simp [h, ih]

/-- The outer loop of the sort in `lock_quads`, with the loop counter
made explicit: `for (i = 0; i < n; i++)` runs one `pass1` per iteration
on the remaining segment. -/
def sortQuadsGo : Nat → List Nat → List Nat
  | _, [] => []
  | 0, l => l
  | fuel + 1, x :: xs =>
    (pass1 x xs).1 :: sortQuadsGo fuel (pass1 x xs).2

/-- The full nested-loop sort of `lock_quads`: `n` iterations of the
outer loop.  Produces the array in the order in which the quadrant
mutexes are then locked. -/
def sortQuads (l : List Nat) : List Nat := sortQuadsGo l.length l

/-- Crossing durations from `CrossIntersection`:
`Spin(5)` for left, `Spin(4)` for straight, `Spin(3)` for right. -/
def crossTime : turn_t → Nat
  | .LEFT_T => 5
  | .STRAIGHT_T => 4
  | .RIGHT_T => 3

/-! ## Basic facts about the sort -/

theorem pass1_perm (c : Nat) (l : List Nat) :
    ((pass1 c l).1 :: (pass1 c l).2).Perm (c :: l) := by
  induction l generalizing c with
  | nil => rfl
  | cons y ys ih =>
    unfold pass1
    by_cases h : y < c
    · simp only [if_pos h]
      exact (List.Perm.swap c _ _).trans (List.Perm.cons c (ih y))
    · simp only [if_neg h]
      exact ((List.Perm.swap y _ _).trans (List.Perm.cons y (ih c))).trans
        (List.Perm.swap c y ys)

theorem pass1_fst_le (c : Nat) (l : List Nat) : (pass1 c l).1 ≤ c := by
  induction l generalizing c with
  | nil => exact le_refl c
  | cons y ys ih =>
    unfold pass1
    by_cases h : y < c
    · simp only [if_pos h]
      exact le_trans (ih y) (le_of_lt h)
    · simp only [if_neg h]
      exact ih c

theorem pass1_fst_min (c : Nat) (l : List Nat) :
    ∀ x ∈ (pass1 c l).2, (pass1 c l).1 ≤ x := by
  induction l generalizing c with
  | nil => intro x hx; simp [pass1] at hx
  | cons y ys ih =>
    unfold pass1
    by_cases h : y < c
    · simp only [if_pos h]
      intro x hx
      rcases List.mem_cons.mp hx with rfl | hx
      · exact le_trans (pass1_fst_le y ys) (le_of_lt h)
      · exact ih y x hx
    · simp only [if_neg h]
      intro x hx
      rcases List.mem_cons.mp hx with rfl | hx
      · exact le_trans (pass1_fst_le c ys) (not_lt.mp h)
      · exact ih c x hx

theorem sortQuadsGo_perm (fuel : Nat) :
    ∀ l : List Nat, l.length ≤ fuel → (sortQuadsGo fuel l).Perm l := by
  induction fuel with
  | zero =>
    intro l hl
    cases l with
    | nil => rfl
    | cons x xs => simp at hl
  | succ fuel ih =>
    intro l hl
    cases l with
    | nil => rfl
    | cons x xs =>
      rw [sortQuadsGo]
      have hlen : (pass1 x xs).2.length ≤ fuel := by
        rw [pass1_length]
        simp at hl
        omega
      exact List.Perm.trans (List.Perm.cons _ (ih _ hlen)) (pass1_perm x xs)

theorem sortQuads_perm (l : List Nat) : (sortQuads l).Perm l :=
  sortQuadsGo_perm l.length l le_rfl

theorem sortQuadsGo_sorted (fuel : Nat) :
    ∀ l : List Nat, l.length ≤ fuel → (sortQuadsGo fuel l).Sorted (· ≤ ·) := by
  induction fuel with
  | zero =>
    intro l hl
    cases l with
    | nil => simp [sortQuadsGo]
    | cons x xs => simp at hl
  | succ fuel ih =>
    intro l hl
    cases l with
    | nil => simp [sortQuadsGo]
    | cons x xs =>
      rw [sortQuadsGo]
      have hlen : (pass1 x xs).2.length ≤ fuel := by
        rw [pass1_length]
        simp at hl
        omega
      refine List.sorted_cons.mpr ⟨?_, ih _ hlen⟩
      intro b hb
      have hb' : b ∈ (pass1 x xs).2 :=
        (sortQuadsGo_perm fuel _ hlen).mem_iff.mp hb
      exact pass1_fst_min x xs b hb'

theorem sortQuads_sorted (l : List Nat) : (sortQuads l).Sorted (· ≤ ·) :=
  sortQuadsGo_sorted l.length l le_rfl

theorem sortQuads_nodup (l : List Nat) (h : l.Nodup) : (sortQuads l).Nodup :=
  ((sortQuads_perm l).nodup_iff).mpr h

theorem sortQuads_strict (l : List Nat) (h : l.Nodup) :
    (sortQuads l).Pairwise (· < ·) := by
  have hs : (sortQuads l).Pairwise (· ≤ ·) := sortQuads_sorted l
  have hn : (sortQuads l).Pairwise (· ≠ ·) := sortQuads_nodup l h
  exact (hs.and hn).imp (fun h => lt_of_le_of_ne h.1 h.2)

/-! ## The concurrent system

Each car thread runs `Car`: sleep until arrival, then
`ArriveIntersection` → `CrossIntersection` → `ExitIntersection`.  Every
blocking point or critical section of that code becomes one atomic
action; the `turn_lock` critical sections are single actions because the
C code holds `turn_lock` for their whole extent. -/

/-- One atomic action of a car thread. -/
inductive Action where
  /-- `usleep(arrival)`, the "arriving" log line and the 2-second
  stop-sign `usleep` at the top of `ArriveIntersection`: pure delay,
  touches no shared control state. -/
  | sleepA
  /-- `sem_wait(&hol_sem[d])`. -/
  | holWait
  /-- The `turn_lock` critical section of `ArriveIntersection`:
  the `while (current_direction != -1 && current_direction != d)
  pthread_cond_wait(...)` loop plus the ownership update.  If the
  predicate fails the thread goes to sleep on `turn_cv` (and retries the
  same action when woken); otherwise it takes or joins the flow. -/
  | joinA
  /-- `Pthread_mutex_lock(&quad[q])` inside `lock_quads`. -/
  | lockQ (q : Nat)
  /-- The "crossing" log line and `Spin(t)` in `CrossIntersection`. -/
  | spinA (t : Nat)
  /-- `Pthread_mutex_unlock(&quad[q])` inside `unlock_quads`. -/
  | unlockQ (q : Nat)
  /-- The `turn_lock` critical section of `ExitIntersection`:
  `flow_count[d]--` and, if it reached zero, `current_direction = -1`
  plus `pthread_cond_broadcast(&turn_cv)`. -/
  | leaveA
  /-- `sem_post(&hol_sem[d])` at the end of `ExitIntersection`. -/
  | holPost
deriving DecidableEq, Repr

/-- The quadrant list of a car in locking order: `CrossIntersection`
calls `get_quads` and then `lock_quads` sorts it in place. -/
def qsOf (c : car_t) : List Nat := sortQuads (get_quads c.dirs)

/-- Script of `ArriveIntersection` (after the arrival sleep). -/
def arriveActs : List Action := [.sleepA, .holWait, .joinA]

/-- Script of `CrossIntersection`: lock the sorted quadrants in
ascending order, spin for the turn-dependent time, unlock in reverse
order. -/
def crossActs (c : car_t) : List Action :=
  (qsOf c).map Action.lockQ
    ++ [Action.spinA (crossTime (get_turn c.dirs))]
    ++ (qsOf c).reverse.map Action.unlockQ

/-- Script of `ExitIntersection`. -/
def exitActs : List Action := [.leaveA, .holPost]

/-- The whole script of one car thread (`Car`). -/
def script (c : car_t) : List Action := arriveActs ++ crossActs c ++ exitActs

/-- `dir_index` of a car's original direction, as the `int` the C code
stores in `d`. -/
def dIdxI (c : car_t) : Int := dir_index c.dirs.dir_original

/-- The same value used as an array subscript (meaningful whenever the
direction is valid, in which case it equals `dIdxI`). -/
def dIdx (c : car_t) : Nat := (dir_index c.dirs.dir_original).toNat

/-- The shared state of the program, plus the program counter and
condition-variable status of every thread.  `quad` stores, per quadrant
mutex, the index of the thread currently holding it (`none` =
unlocked); the holder identity is ghost information — a pthread mutex
only stores locked/unlocked — recorded to state mutual exclusion. -/
structure SysState where
  /-- Program counter of thread `i`: index into `script (cars[i])`. -/
  pc : Nat → Nat
  /-- Thread `i` is asleep on `turn_cv`. -/
  sleeping : Nat → Bool
  /-- `current_direction` (−1 = free). -/
  cur : Int
  /-- `flow_count[4]`. -/
  count : Nat → Int
  /-- Values of the `hol_sem` semaphores (initialised to 1). -/
  hol : Nat → Nat
  /-- Holder of each quadrant mutex. -/
  quad : Nat → Option Nat

/-- Advance thread `i`'s program counter. -/
def pcBump (s : SysState) (i : Nat) : SysState :=
  { s with pc := Function.update s.pc i (s.pc i + 1) }

/-- Effect of one atomic action of thread `i` (car `c`);
`none` when the thread is blocked. -/
def doAct (c : car_t) (i : Nat) (a : Action) (s : SysState) : Option SysState :=
  match a with
  | .sleepA => some (pcBump s i)
  | .spinA _ => some (pcBump s i)
  | .holWait =>
      if 0 < s.hol (dIdx c) then
        some { pcBump s i with
                 hol := Function.update s.hol (dIdx c) (s.hol (dIdx c) - 1) }
      else none
  | .joinA =>
      if s.sleeping i then none
      else if s.cur = -1 then
        some { pcBump s i with
                 cur := dIdxI c
                 count := Function.update s.count (dIdx c) 1 }
      else if s.cur = dIdxI c then
        some { pcBump s i with
                 count := Function.update s.count (dIdx c) (s.count (dIdx c) + 1) }
      else
        some { s with sleeping := Function.update s.sleeping i true }
  | .lockQ q =>
      match s.quad q with
      | none => some { pcBump s i with quad := Function.update s.quad q (some i) }
      | some _ => none
  | .unlockQ q =>
      some { pcBump s i with quad := Function.update s.quad q none }
  | .leaveA =>
      if s.count (dIdx c) - 1 = 0 then
        some { pcBump s i with
                 count := Function.update s.count (dIdx c) (s.count (dIdx c) - 1)
                 cur := -1
                 sleeping := fun _ => false }
      else
        some { pcBump s i with
                 count := Function.update s.count (dIdx c) (s.count (dIdx c) - 1) }
  | .holPost =>
      some { pcBump s i with
               hol := Function.update s.hol (dIdx c) (s.hol (dIdx c) + 1) }

/-- Car `i` of the manifest (out-of-range defaults never step). -/
def carAt (cars : List car_t) (i : Nat) : car_t := cars.getD i cdef

/-- One step of thread `i`: run the next action of its script. -/
def stepi (cars : List car_t) (i : Nat) (s : SysState) : Option SysState :=
  if i < cars.length then
    match (script (carAt cars i))[s.pc i]? with
    | some a => doAct (carAt cars i) i a s
    | none => none
  else none

/-- The interleaving semantics: some thread takes a step. -/
def Step (cars : List car_t) (s s' : SysState) : Prop :=
  ∃ i, stepi cars i s = some s'

/-- The state produced by `main` before the car threads run: every
mutex unlocked, `current_direction = -1`, all flow counts 0, every
head-of-line semaphore at 1. -/
def initSt : SysState :=
  { pc := fun _ => 0
    sleeping := fun _ => false
    cur := -1
    count := fun _ => 0
    hol := fun _ => 1
    quad := fun _ => none }

/-- Reachable states of the program. -/
def Reachable (cars : List car_t) (s : SysState) : Prop :=
  Relation.ReflTransGen (Step cars) initSt s

/-- All direction characters of the manifest are valid (`dir_index`
does not return −1 for any of them). -/
def ValidCars (cars : List car_t) : Prop :=
  ∀ c ∈ cars, validDir c.dirs.dir_original

instance (cars : List car_t) : Decidable (ValidCars cars) := by
  unfold ValidCars
  exact List.decidableBAll _ cars

/-- Thread `i` has run its whole script (state `Exited`). -/
def AllExited (cars : List car_t) (s : SysState) : Prop :=
  ∀ i, i < cars.length → s.pc i = (script (carAt cars i)).length

/-- The hard-coded car manifest of `tc.c` (ids, directions and arrival
order; the arrival times 1.1 s, 2.2 s, … only scale the initial sleep). -/
def cars8 : List car_t :=
  [ { cid := 1, dirs := ⟨'^', '^'⟩, index := 0 }
  , { cid := 2, dirs := ⟨'^', '^'⟩, index := 1 }
  , { cid := 3, dirs := ⟨'^', '<'⟩, index := 2 }
  , { cid := 4, dirs := ⟨'v', 'v'⟩, index := 3 }
  , { cid := 5, dirs := ⟨'v', '>'⟩, index := 4 }
  , { cid := 6, dirs := ⟨'^', '^'⟩, index := 5 }
  , { cid := 7, dirs := ⟨'>', '^'⟩, index := 6 }
  , { cid := 8, dirs := ⟨'<', '^'⟩, index := 7 } ]

/-! ## Derived observations on a state -/

/-- How many quadrant locks car `c` holds when its program counter is
`p`, with `k` of its quadrants to lock: none before the locking phase
(positions 0–2 are arrive actions, position 3 is about to take the
first lock), `p − 3` during locking, all `k` through the spin, and
`2k + 4 − p` as the unlocking phase at positions `k+4 … 2k+3` releases
them in reverse order. -/
def heldCount (k p : Nat) : Nat :=
  if p ≤ 3 then 0
  else if p ≤ k + 3 then p - 3
  else if p ≤ 2 * k + 4 then 2 * k + 4 - p
  else 0

/-- The quadrant locks car `c` holds at program counter `p`: the first
`heldCount` entries of its sorted quadrant list. -/
def locksHeld (c : car_t) (p : Nat) : List Nat :=
  (qsOf c).take (heldCount (qsOf c).length p)

/-- Thread `i` currently holds quadrant lock `q` (equivalently: its car
occupies quadrant `q` of the intersection). -/
def Holds (cars : List car_t) (s : SysState) (i q : Nat) : Prop :=
  i < cars.length ∧ q ∈ locksHeld (carAt cars i) (s.pc i)

instance (cars : List car_t) (s : SysState) (i q : Nat) :
    Decidable (Holds cars s i q) := by
  unfold Holds
  infer_instance

/-- Positions at which a car has joined the flow (`ArriveIntersection`
completed) and not yet left it (`ExitIntersection`'s `turn_lock`
section not yet executed); `flow_count` counts exactly these cars. -/
def inFlow (c : car_t) (p : Nat) : Prop :=
  3 ≤ p ∧ p ≤ 2 * (qsOf c).length + 4

instance (c : car_t) (p : Nat) : Decidable (inFlow c p) := by
  unfold inFlow; infer_instance

/-- Positions at which a car holds its head-of-line semaphore token
(`sem_wait` done, `sem_post` not yet done). -/
def holHeld (c : car_t) (p : Nat) : Prop :=
  2 ≤ p ∧ p ≤ 2 * (qsOf c).length + 5

instance (c : car_t) (p : Nat) : Decidable (holHeld c p) := by
  unfold holHeld; infer_instance

/-- The threads of direction `d` currently in the flow. -/
def flowSet (cars : List car_t) (s : SysState) (d : Nat) : Finset Nat :=
  (Finset.range cars.length).filter
    (fun i => dIdx (carAt cars i) = d ∧ inFlow (carAt cars i) (s.pc i))

/-- The threads of direction `d` currently holding the direction's
head-of-line token. -/
def holSet (cars : List car_t) (s : SysState) (d : Nat) : Finset Nat :=
  (Finset.range cars.length).filter
    (fun i => dIdx (carAt cars i) = d ∧ holHeld (carAt cars i) (s.pc i))

/-- The inductive invariant of the system. -/
structure Inv (cars : List car_t) (s : SysState) : Prop where
  /-- Program counters stay within the script. -/
  pc_le : ∀ i, i < cars.length → s.pc i ≤ (script (carAt cars i)).length
  /-- A held quadrant mutex is held by a real thread whose program
  counter says it holds it. -/
  quad_holds : ∀ q i, s.quad q = some i →
    i < cars.length ∧ q ∈ locksHeld (carAt cars i) (s.pc i)
  /-- Conversely, a thread in its locking window really owns the mutex. -/
  holds_quad : ∀ i, i < cars.length →
    ∀ q ∈ locksHeld (carAt cars i) (s.pc i), s.quad q = some i
  /-- Every car in the flow is of the owning direction. -/
  flow_owner : ∀ i, i < cars.length → inFlow (carAt cars i) (s.pc i) →
    s.cur = dIdxI (carAt cars i)
  /-- `flow_count[d]` counts the cars of direction `d` in the flow. -/
  count_eq : ∀ d, s.count d = ((flowSet cars s d).card : Int)
  /-- A non-free `current_direction` is a real direction with a
  positive count. -/
  cur_pos : s.cur ≠ -1 → ∃ d : Nat, d < 4 ∧ s.cur = (d : Int) ∧ 0 < s.count d
  /-- Each head-of-line semaphore plus its holders is the binary token. -/
  hol_card : ∀ d, s.hol d + (holSet cars s d).card = 1
  /-- A sleeping thread is parked at the `joinA` re-check with the
  intersection owned by a different direction. -/
  sleep_pc : ∀ i, s.sleeping i = true →
    i < cars.length ∧ s.pc i = 2 ∧ s.cur ≠ -1 ∧ s.cur ≠ dIdxI (carAt cars i)

/-- Termination measure: total remaining script steps, weighted so that
one thread going to sleep (which does not advance a program counter)
still decreases the measure. -/
def meas (cars : List car_t) (s : SysState) : Nat :=
  (∑ i in Finset.range cars.length,
      ((script (carAt cars i)).length - s.pc i)) * (cars.length + 1)
    + ((Finset.range cars.length).filter (fun i => s.sleeping i = false)).card

/-- Quadrant names, per the comment `quad 0 = NW, 1 = NE, 2 = SE, 3 = SW`. -/
def qNW : Nat := 0

def qNE : Nat := 1

def qSE : Nat := 2

def qSW : Nat := 3

/-- The quadrant lock indices a script acquires, in acquisition order. -/
def actLocks (l : List Action) : List Nat :=
  l.filterMap (fun a => match a with
    | .lockQ q => some q
    | _ => none)

/-- The quadrant lock indices a script releases, in release order. -/
def actUnlocks (l : List Action) : List Nat :=
  l.filterMap (fun a => match a with
    | .unlockQ q => some q
    | _ => none)

/-! Witness system: a single car going straight from North, stepped
through its script (used to exhibit concrete reachable states). -/

def carW : car_t := { cid := 1, dirs := ⟨'^', '^'⟩, index := 0 }

def carsW : List car_t := [carW]

def sW1 : SysState := pcBump initSt 0

def sW2 : SysState := { pcBump sW1 0 with
  hol := Function.update sW1.hol (dIdx carW) (sW1.hol (dIdx carW) - 1) }

def sW3 : SysState := { pcBump sW2 0 with
  cur := dIdxI carW
  count := Function.update sW2.count (dIdx carW) 1 }

def sW4 : SysState := { pcBump sW3 0 with
  quad := Function.update sW3.quad 1 (some 0) }

def sW5 : SysState := { pcBump sW4 0 with
  quad := Function.update sW4.quad 2 (some 0) }

def sW6 : SysState := pcBump sW5 0

def sW7 : SysState := { pcBump sW6 0 with
  quad := Function.update sW6.quad 2 none }

def sW8 : SysState := { pcBump sW7 0 with
  quad := Function.update sW7.quad 1 none }

/-! ## Facts about directions and quadrant lists -/

theorem validDir_iff (ch : Char) :
    validDir ch ↔ ch = '^' ∨ ch = '>' ∨ ch = 'v' ∨ ch = '<' := by
  unfold validDir dir_index
  split_ifs with h1 h2 h3 h4 <;> simp_all

theorem dir_index_cases (ch : Char) (h : validDir ch) :
    dir_index ch = 0 ∨ dir_index ch = 1 ∨ dir_index ch = 2 ∨ dir_index ch = 3 := by
  rcases (validDir_iff ch).mp h with rfl | rfl | rfl | rfl <;> simp [dir_index]

/-- For a valid car the `int` direction and its use as array subscript
agree, and lie below 4. -/
theorem dIdx_spec (c : car_t) (h : validDir c.dirs.dir_original) :
    dIdxI c = (dIdx c : Int) ∧ dIdx c < 4 := by
  unfold dIdxI dIdx
  rcases dir_index_cases _ h with h' | h' | h' | h' <;> rw [h'] <;> exact ⟨rfl, by omega⟩

theorem get_quads_nodup (d : directions) : (get_quads d).Nodup := by
  unfold get_quads
  split_ifs <;> decide

theorem get_quads_lt4 (d : directions) : ∀ x ∈ get_quads d, x < 4 := by
  unfold get_quads
  split_ifs <;> decide

theorem qsOf_nodup (c : car_t) : (qsOf c).Nodup :=
  sortQuads_nodup _ (get_quads_nodup c.dirs)

theorem qsOf_strict (c : car_t) : (qsOf c).Pairwise (· < ·) :=
  sortQuads_strict _ (get_quads_nodup c.dirs)

theorem qsOf_lt4 (c : car_t) : ∀ x ∈ qsOf c, x < 4 := by
  intro x hx
  exact get_quads_lt4 c.dirs x ((sortQuads_perm _).subset hx)

/-- In a strictly ascending list, everything before position `j` is
smaller than the entry at `j`. -/
theorem mem_take_lt {l : List Nat} (hp : l.Pairwise (· < ·)) :
    ∀ j (hj : j < l.length) x, x ∈ l.take j → x < l[j] := by
  induction l with
  | nil => intro j hj; simp at hj
  | cons a tl ih =>
    intro j hj x hx
    cases j with
    | zero => simp at hx
    | succ j =>
      rw [List.take_succ_cons] at hx
      rcases List.mem_cons.mp hx with rfl | hx
      · have := List.pairwise_cons.mp hp
        exact this.1 _ (List.getElem_mem _)
      · exact ih (List.pairwise_cons.mp hp).2 j (by simpa using hj) x hx

theorem getElem_mem_take_succ {α : Type} (l : List α) (j : Nat) (hj : j < l.length) :
    l[j] ∈ l.take (j + 1) := by
  have h1 : l.take (j + 1) = l.take j ++ [l[j]] := by
    rw [List.take_succ, List.getElem?_eq_some.mpr ⟨hj, rfl⟩]
    rfl
  rw [h1]
  exact List.mem_append_right _ (List.mem_singleton.mpr rfl)

theorem take_subset_succ {α : Type} (l : List α) (j : Nat) :
    l.take j ⊆ l.take (j + 1) := by
  rw [List.take_succ]
  exact List.subset_append_left _ _

/-! ## Script positions -/

theorem script_length (c : car_t) :
    (script c).length = 2 * (qsOf c).length + 6 := by
  simp [script, arriveActs, crossActs, exitActs]
  omega

theorem script_get_zero (c : car_t) : (script c)[0]? = some .sleepA := by
  rw [script, List.append_assoc, List.getElem?_append_left (by simp [arriveActs])]
  decide

theorem script_get_one (c : car_t) : (script c)[1]? = some .holWait := by
  rw [script, List.append_assoc, List.getElem?_append_left (by simp [arriveActs])]
  decide

theorem script_get_two (c : car_t) : (script c)[2]? = some .joinA := by
  rw [script, List.append_assoc, List.getElem?_append_left (by simp [arriveActs])]
  decide

/-- Positions `≥ 3` of the script index into `crossActs ++ exitActs`. -/
theorem script_get_ge3 (c : car_t) (p : Nat) (hp : 3 ≤ p) :
    (script c)[p]? = (crossActs c ++ exitActs)[p - 3]? := by
  rw [script, List.append_assoc,
    List.getElem?_append_right (by simp [arriveActs]; omega)]
  have h : (arriveActs).length = 3 := by simp [arriveActs]
  rw [h]

theorem script_get_lock (c : car_t) (j : Nat) (hj : j < (qsOf c).length) :
    (script c)[3 + j]? = some (.lockQ ((qsOf c)[j])) := by
  rw [script_get_ge3 c (3 + j) (by omega)]
  have h1 : 3 + j - 3 = j := by omega
  rw [h1, crossActs, List.append_assoc, List.append_assoc,
    List.getElem?_append_left (by simpa using hj), List.getElem?_map,
    List.getElem?_eq_some.mpr ⟨hj, rfl⟩]
  rfl

theorem script_get_spin (c : car_t) :
    (script c)[(qsOf c).length + 3]? =
      some (.spinA (crossTime (get_turn c.dirs))) := by
  rw [script_get_ge3 c _ (by omega)]
  have h1 : (qsOf c).length + 3 - 3 = (qsOf c).length := by omega
  rw [h1, crossActs, List.append_assoc, List.append_assoc,
    List.getElem?_append_right (by simp)]
  simp

theorem script_get_unlock (c : car_t) (j : Nat) (hj : j < (qsOf c).length) :
    (script c)[(qsOf c).length + 4 + j]? =
      some (.unlockQ ((qsOf c).getD ((qsOf c).length - 1 - j) 0)) := by
  rw [script_get_ge3 c _ (by omega)]
  have h1 : (qsOf c).length + 4 + j - 3 = (qsOf c).length + 1 + j := by omega
  rw [h1, crossActs, List.append_assoc, List.append_assoc,
    List.getElem?_append_right (by simp; omega)]
  simp only [List.length_map]
  have h2 : (qsOf c).length + 1 + j - (qsOf c).length = 1 + j := by omega
  rw [h2, List.getElem?_append_right
    (by simp only [List.length_cons, List.length_nil]; omega)]
  simp only [List.length_cons, List.length_nil]
  have h3 : 1 + j - 1 = j := by omega
  rw [h3, List.getElem?_append_left (by simpa using hj), List.getElem?_map,
    List.getElem?_reverse (by simpa using hj)]
  rw [List.getElem?_eq_some.mpr ⟨by omega, rfl⟩]
  rw [List.getD_eq_getElem (qsOf c) 0
    (show (qsOf c).length - 1 - j < (qsOf c).length by omega)]
  rfl

theorem script_get_leave (c : car_t) :
    (script c)[2 * (qsOf c).length + 4]? = some .leaveA := by
  rw [script_get_ge3 c _ (by omega)]
  rw [List.getElem?_append_right (by simp [crossActs]; omega)]
  have h1 : 2 * (qsOf c).length + 4 - 3 - (crossActs c).length = 0 := by
    simp [crossActs]; omega
  rw [h1]
  decide

theorem script_get_post (c : car_t) :
    (script c)[2 * (qsOf c).length + 5]? = some .holPost := by
  rw [script_get_ge3 c _ (by omega)]
  rw [List.getElem?_append_right (by simp [crossActs]; omega)]
  have h1 : 2 * (qsOf c).length + 5 - 3 - (crossActs c).length = 1 := by
    simp [crossActs]; omega
  rw [h1]
  decide

/-! ## Held-lock windows -/

theorem heldCount_le3 (k p : Nat) (hp : p ≤ 3) : heldCount k p = 0 := by
  unfold heldCount; split_ifs <;> omega

theorem heldCount_lock (k j : Nat) (hj : j < k) :
    heldCount k (3 + j) = j ∧ heldCount k (3 + j + 1) = j + 1 := by
  unfold heldCount; split_ifs <;> omega

theorem heldCount_spin (k : Nat) :
    heldCount k (k + 3) = k ∧ heldCount k (k + 4) = k := by
  unfold heldCount; split_ifs <;> omega

theorem heldCount_unlock (k j : Nat) (hj : j < k) :
    heldCount k (k + 4 + j) = k - j ∧ heldCount k (k + 4 + j + 1) = k - j - 1 := by
  unfold heldCount; split_ifs <;> omega

theorem heldCount_after (k p : Nat) (hp : 2 * k + 4 ≤ p) : heldCount k p = 0 := by
  unfold heldCount; split_ifs <;> omega

theorem heldCount_pos_window (k p : Nat) (h : 0 < heldCount k p) :
    3 < p ∧ p < 2 * k + 4 ∧ p ≤ 2 * k + 3 := by
  unfold heldCount at h; split_ifs at h <;> omega

/-! ## Counting helpers -/

/-- Changing the truth value of a predicate at one point `i < n` shifts
the filtered cardinality by the exchanged indicator values. -/
theorem card_filter_update (n i : Nat) (hi : i < n) (P Q : Nat → Prop)
    [DecidablePred P] [DecidablePred Q] (h : ∀ j, j ≠ i → (P j ↔ Q j)) :
    ((Finset.range n).filter Q).card + (if P i then 1 else 0)
      = ((Finset.range n).filter P).card + (if Q i then 1 else 0) := by
  have hmem : i ∈ Finset.range n := Finset.mem_range.mpr hi
  rw [Finset.card_filter, Finset.card_filter]
  rw [← Finset.add_sum_erase _ _ hmem, ← Finset.add_sum_erase _ _ hmem]
  have he : (∑ j ∈ (Finset.range n).erase i, if Q j then 1 else 0)
      = ∑ j ∈ (Finset.range n).erase i, if P j then 1 else 0 := by
    refine Finset.sum_congr rfl (fun j hj => ?_)
    have hne : j ≠ i := Finset.ne_of_mem_erase hj
    by_cases hp : P j
    · simp [hp, (h j hne).mp hp]
    · have hq : ¬ Q j := fun hq => hp ((h j hne).mpr hq)
      simp [hp, hq]
  rw [he]
  by_cases hp : P i <;> by_cases hq : Q i <;> simp [hp, hq] <;> omega

/-- Same exchange identity for a sum over `range n` changed at one
point. -/
theorem sum_range_update (n i : Nat) (hi : i < n) (f g : Nat → Nat)
    (h : ∀ j, j ≠ i → g j = f j) :
    (∑ j ∈ Finset.range n, g j) + f i = (∑ j ∈ Finset.range n, f j) + g i := by
  have hmem : i ∈ Finset.range n := Finset.mem_range.mpr hi
  rw [← Finset.add_sum_erase _ g hmem, ← Finset.add_sum_erase _ f hmem]
  have he : (∑ j ∈ (Finset.range n).erase i, g j)
      = ∑ j ∈ (Finset.range n).erase i, f j :=
    Finset.sum_congr rfl (fun j hj => h j (Finset.ne_of_mem_erase hj))
  rw [he]
  omega

/-! ## Small state lemmas -/

@[simp] theorem pcBump_pc (s : SysState) (i : Nat) :
    (pcBump s i).pc = Function.update s.pc i (s.pc i + 1) := rfl

@[simp] theorem pcBump_sleeping (s : SysState) (i : Nat) :
    (pcBump s i).sleeping = s.sleeping := rfl

@[simp] theorem pcBump_cur (s : SysState) (i : Nat) :
    (pcBump s i).cur = s.cur := rfl

@[simp] theorem pcBump_count (s : SysState) (i : Nat) :
    (pcBump s i).count = s.count := rfl

@[simp] theorem pcBump_hol (s : SysState) (i : Nat) :
    (pcBump s i).hol = s.hol := rfl

@[simp] theorem pcBump_quad (s : SysState) (i : Nat) :
    (pcBump s i).quad = s.quad := rfl

/-- Inverse characterization: what action can sit at position `p`. -/
theorem script_get_cases (c : car_t) (p : Nat) (a : Action)
    (h : (script c)[p]? = some a) :
    (p = 0 ∧ a = .sleepA) ∨ (p = 1 ∧ a = .holWait) ∨ (p = 2 ∧ a = .joinA) ∨
    (∃ j, ∃ hj : j < (qsOf c).length, p = 3 + j ∧ a = .lockQ ((qsOf c)[j])) ∨
    (p = (qsOf c).length + 3 ∧ a = .spinA (crossTime (get_turn c.dirs))) ∨
    (∃ j, ∃ hj : j < (qsOf c).length, p = (qsOf c).length + 4 + j ∧
      a = .unlockQ ((qsOf c).getD ((qsOf c).length - 1 - j) 0)) ∨
    (p = 2 * (qsOf c).length + 4 ∧ a = .leaveA) ∨
    (p = 2 * (qsOf c).length + 5 ∧ a = .holPost) := by
  have hlt : p < (script c).length := by
    rcases List.getElem?_eq_some.mp h with ⟨h', _⟩
    exact h'
  rw [script_length] at hlt
  set k := (qsOf c).length with hk
  have hcase : p = 0 ∨ p = 1 ∨ p = 2 ∨ (∃ j, j < k ∧ p = 3 + j) ∨ p = k + 3 ∨
      (∃ j, j < k ∧ p = k + 4 + j) ∨ p = 2 * k + 4 ∨ p = 2 * k + 5 := by
    by_cases h3 : p ≤ 2
    · omega
    · by_cases h4 : p ≤ k + 2
      · exact Or.inr (Or.inr (Or.inr (Or.inl ⟨p - 3, by omega, by omega⟩)))
      · by_cases h5 : p = k + 3
        · omega
        · by_cases h6 : p ≤ 2 * k + 3
          · refine Or.inr (Or.inr (Or.inr (Or.inr (Or.inr (Or.inl
              ⟨p - (k + 4), by omega, by omega⟩)))))
          · omega
  rcases hcase with rfl | rfl | rfl | ⟨j, hj, rfl⟩ | rfl | ⟨j, hj, rfl⟩ | rfl | rfl
  · rw [script_get_zero] at h
    exact Or.inl ⟨rfl, (Option.some_injective _ h).symm⟩
  · rw [script_get_one] at h
    exact Or.inr (Or.inl ⟨rfl, (Option.some_injective _ h).symm⟩)
  · rw [script_get_two] at h
    exact Or.inr (Or.inr (Or.inl ⟨rfl, (Option.some_injective _ h).symm⟩))
  · rw [script_get_lock c j hj] at h
    exact Or.inr (Or.inr (Or.inr (Or.inl
      ⟨j, hj, rfl, (Option.some_injective _ h).symm⟩)))
  · rw [script_get_spin] at h
    exact Or.inr (Or.inr (Or.inr (Or.inr (Or.inl
      ⟨rfl, (Option.some_injective _ h).symm⟩))))
  · rw [script_get_unlock c j hj] at h
    exact Or.inr (Or.inr (Or.inr (Or.inr (Or.inr (Or.inl
      ⟨j, hj, rfl, (Option.some_injective _ h).symm⟩)))))
  · rw [script_get_leave] at h
    exact Or.inr (Or.inr (Or.inr (Or.inr (Or.inr (Or.inr (Or.inl
      ⟨rfl, (Option.some_injective _ h).symm⟩))))))
  · rw [script_get_post] at h
    exact Or.inr (Or.inr (Or.inr (Or.inr (Or.inr (Or.inr (Or.inr
      ⟨rfl, (Option.some_injective _ h).symm⟩))))))

theorem carAt_mem (cars : List car_t) (i : Nat) (hi : i < cars.length) :
    carAt cars i ∈ cars := by
  unfold carAt
  rw [List.getD_eq_getElem?_getD, List.getElem?_eq_some.mpr ⟨hi, rfl⟩]
  exact List.getElem_mem hi

/-- Two states with pointwise `inFlow`-equivalent program counters have
the same flow sets. -/
theorem flowSet_eq_of_pc (cars : List car_t) (s s' : SysState) (d : Nat)
    (h : ∀ j, j < cars.length →
      (inFlow (carAt cars j) (s'.pc j) ↔ inFlow (carAt cars j) (s.pc j))) :
    flowSet cars s' d = flowSet cars s d := by
  unfold flowSet
  refine Finset.filter_congr (fun j hj => ?_)
  rw [Finset.mem_range] at hj
  exact and_congr_right (fun _ => h j hj)

theorem holSet_eq_of_pc (cars : List car_t) (s s' : SysState) (d : Nat)
    (h : ∀ j, j < cars.length →
      (holHeld (carAt cars j) (s'.pc j) ↔ holHeld (carAt cars j) (s.pc j))) :
    holSet cars s' d = holSet cars s d := by
  unfold holSet
  refine Finset.filter_congr (fun j hj => ?_)
  rw [Finset.mem_range] at hj
  exact and_congr_right (fun _ => h j hj)

/-- Preservation for a step that only advances thread `i`'s program
counter across a boundary where its held locks, flow membership and
token membership do not change. -/
theorem Inv_bump_pure (cars : List car_t) (s : SysState) (i : Nat)
    (hInv : Inv cars s) (hi : i < cars.length)
    (hlt : s.pc i < (script (carAt cars i)).length)
    (hpc2 : s.pc i ≠ 2)
    (hheld : locksHeld (carAt cars i) (s.pc i + 1) = locksHeld (carAt cars i) (s.pc i))
    (hflow : inFlow (carAt cars i) (s.pc i + 1) ↔ inFlow (carAt cars i) (s.pc i))
    (hhol : holHeld (carAt cars i) (s.pc i + 1) ↔ holHeld (carAt cars i) (s.pc i)) :
    Inv cars (pcBump s i) := by
  have hpc' : ∀ j, j ≠ i → (pcBump s i).pc j = s.pc j := by
    intro j hj
    simp only [pcBump_pc]
    exact Function.update_noteq hj _ _
  have hpci : (pcBump s i).pc i = s.pc i + 1 := by
    simp only [pcBump_pc]
    exact Function.update_same _ _ _
  have hheld' : ∀ j, j < cars.length →
      locksHeld (carAt cars j) ((pcBump s i).pc j)
        = locksHeld (carAt cars j) (s.pc j) := by
    intro j hjn
    by_cases hji : j = i
    · subst hji; rw [hpci, hheld]
    · rw [hpc' j hji]
  have hflow' : ∀ j, j < cars.length →
      (inFlow (carAt cars j) ((pcBump s i).pc j) ↔
        inFlow (carAt cars j) (s.pc j)) := by
    intro j hjn
    by_cases hji : j = i
    · subst hji; rw [hpci]; exact hflow
    · rw [hpc' j hji]
  have hhol' : ∀ j, j < cars.length →
      (holHeld (carAt cars j) ((pcBump s i).pc j) ↔
        holHeld (carAt cars j) (s.pc j)) := by
    intro j hjn
    by_cases hji : j = i
    · subst hji; rw [hpci]; exact hhol
    · rw [hpc' j hji]
  refine ⟨?_, ?_, ?_, ?_, ?_, ?_, ?_, ?_⟩
  · intro j hjn
    by_cases hji : j = i
    · subst hji; rw [hpci]; omega
    · rw [hpc' j hji]; exact hInv.pc_le j hjn
  · intro q j hq
    have h := hInv.quad_holds q j hq
    exact ⟨h.1, by rw [hheld' j h.1]; exact h.2⟩
  · intro j hjn q hq
    rw [hheld' j hjn] at hq
    exact hInv.holds_quad j hjn q hq
  · intro j hjn hf
    rw [hflow' j hjn] at hf
    exact hInv.flow_owner j hjn hf
  · intro d
    show s.count d = _
    rw [flowSet_eq_of_pc cars s _ d hflow']
    exact hInv.count_eq d
  · exact hInv.cur_pos
  · intro d
    show s.hol d + _ = 1
    rw [holSet_eq_of_pc cars s _ d hhol']
    exact hInv.hol_card d
  · intro j hsj
    have h := hInv.sleep_pc j hsj
    refine ⟨h.1, ?_, h.2.2⟩
    by_cases hji : j = i
    · subst hji
      exact absurd h.2.1 hpc2
    · rw [hpc' j hji]; exact h.2.1

theorem locksHeld_le3 (c : car_t) (p : Nat) (hp : p ≤ 3) : locksHeld c p = [] := by
  unfold locksHeld
  rw [heldCount_le3 _ _ hp]
  rfl

theorem locksHeld_after (c : car_t) (p : Nat)
    (hp : 2 * (qsOf c).length + 4 ≤ p) : locksHeld c p = [] := by
  unfold locksHeld
  rw [heldCount_after _ _ hp]
  rfl

/-- Preservation for `sem_wait(&hol_sem[d])`. -/
theorem inv_holWait (cars : List car_t) (s : SysState) (i : Nat)
    (hInv : Inv cars s) (hi : i < cars.length) (hpc : s.pc i = 1)
    (hguard : 0 < s.hol (dIdx (carAt cars i))) :
    Inv cars { pcBump s i with
      hol := Function.update s.hol (dIdx (carAt cars i))
               (s.hol (dIdx (carAt cars i)) - 1) } := by
  set c := carAt cars i with hc
  set d := dIdx c with hd
  set s' : SysState := { pcBump s i with
    hol := Function.update s.hol d (s.hol d - 1) } with hs'
  have hpci : s'.pc i = 2 := by
    show Function.update s.pc i (s.pc i + 1) i = 2
    rw [Function.update_same, hpc]
  have hpcj : ∀ j, j ≠ i → s'.pc j = s.pc j := by
    intro j hj
    exact Function.update_noteq hj _ _
  have hheld' : ∀ j, j < cars.length →
      locksHeld (carAt cars j) (s'.pc j) = locksHeld (carAt cars j) (s.pc j) := by
    intro j hjn
    by_cases hji : j = i
    · subst hji
      rw [hpci, locksHeld_le3 _ 2 (by omega), locksHeld_le3 _ _ (by omega)]
    · rw [hpcj j hji]
  have hflow' : ∀ j, j < cars.length →
      (inFlow (carAt cars j) (s'.pc j) ↔ inFlow (carAt cars j) (s.pc j)) := by
    intro j hjn
    by_cases hji : j = i
    · subst hji
      rw [hpci, hpc]
      unfold inFlow
      omega
    · rw [hpcj j hji]
  refine ⟨?_, ?_, ?_, ?_, ?_, ?_, ?_, ?_⟩
  · intro j hjn
    by_cases hji : j = i
    · subst hji
      rw [hpci]
      have := script_length (carAt cars j)
      omega
    · rw [hpcj j hji]; exact hInv.pc_le j hjn
  · intro q j hq
    have h := hInv.quad_holds q j hq
    exact ⟨h.1, by rw [hheld' j h.1]; exact h.2⟩
  · intro j hjn q hq
    rw [hheld' j hjn] at hq
    exact hInv.holds_quad j hjn q hq
  · intro j hjn hf
    rw [hflow' j hjn] at hf
    exact hInv.flow_owner j hjn hf
  · intro d'
    show s.count d' = _
    rw [flowSet_eq_of_pc cars s s' d' hflow']
    exact hInv.count_eq d'
  · exact hInv.cur_pos
  · intro d'
    by_cases hdd : d' = d
    · subst hdd
      have hcard := card_filter_update cars.length i hi
        (fun j => dIdx (carAt cars j) = d ∧ holHeld (carAt cars j) (s.pc j))
        (fun j => dIdx (carAt cars j) = d ∧ holHeld (carAt cars j) (s'.pc j))
        (by
          intro j hj
          dsimp only
          rw [hpcj j hj])
      have hPi : ¬ (dIdx (carAt cars i) = d ∧ holHeld (carAt cars i) (s.pc i)) := by
        intro h
        have h2 : 2 ≤ s.pc i := h.2.1
        omega
      have hQi : dIdx (carAt cars i) = d ∧ holHeld (carAt cars i) (s'.pc i) := by
        refine ⟨by rw [hd, hc], ?_⟩
        rw [hpci]
        exact ⟨by omega, by omega⟩
      rw [if_neg hPi, if_pos hQi] at hcard
      have hold := hInv.hol_card d
      show Function.update s.hol d (s.hol d - 1) d + (holSet cars s' d).card = 1
      rw [Function.update_same]
      unfold holSet at hold ⊢
      omega
    · have hset : holSet cars s' d' = holSet cars s d' := by
        unfold holSet
        refine Finset.filter_congr (fun j hj => ?_)
        by_cases hji : j = i
        · subst hji
          constructor
          · intro h
            exact absurd (by rw [hd, hc]; exact h.1.symm) hdd
          · intro h
            exact absurd (by rw [hd, hc]; exact h.1.symm) hdd
        · rw [hpcj j hji]
      show Function.update s.hol d (s.hol d - 1) d' + (holSet cars s' d').card = 1
      rw [Function.update_noteq hdd _ _, hset]
      exact hInv.hol_card d'
  · intro j hsj
    have h := hInv.sleep_pc j hsj
    refine ⟨h.1, ?_, h.2.2⟩
    by_cases hji : j = i
    · subst hji
      rw [hpc] at h
      omega
    · rw [hpcj j hji]; exact h.2.1

theorem mem_take_succ_iff {α : Type} (l : List α) (j : Nat) (hj : j < l.length)
    (x : α) : x ∈ l.take (j + 1) ↔ x ∈ l.take j ∨ x = l[j] := by
  have h1 : l.take (j + 1) = l.take j ++ [l[j]] := by
    rw [List.take_succ, List.getElem?_eq_some.mpr ⟨hj, rfl⟩]
    rfl
  rw [h1, List.mem_append, List.mem_singleton]

/-- Preservation for `sem_post(&hol_sem[d])`. -/
theorem inv_holPost (cars : List car_t) (s : SysState) (i : Nat) (c : car_t)
    (hInv : Inv cars s) (hi : i < cars.length) (hcar : carAt cars i = c)
    (hpc : s.pc i = 2 * (qsOf c).length + 5) :
    Inv cars { pcBump s i with
      hol := Function.update s.hol (dIdx c) (s.hol (dIdx c) + 1) } := by
  set s' : SysState := { pcBump s i with
    hol := Function.update s.hol (dIdx c) (s.hol (dIdx c) + 1) } with hs'
  have hpci : s'.pc i = 2 * (qsOf c).length + 6 := by
    show Function.update s.pc i (s.pc i + 1) i = _
    rw [Function.update_same, hpc]
  have hpcj : ∀ j, j ≠ i → s'.pc j = s.pc j := by
    intro j hj
    exact Function.update_noteq hj _ _
  have hheld' : ∀ j, j < cars.length →
      locksHeld (carAt cars j) (s'.pc j) = locksHeld (carAt cars j) (s.pc j) := by
    intro j hjn
    by_cases hji : j = i
    · rw [hji, hcar, hpci, hpc, locksHeld_after _ _ (by omega),
        locksHeld_after _ _ (by omega)]
    · rw [hpcj j hji]
  have hflow' : ∀ j, j < cars.length →
      (inFlow (carAt cars j) (s'.pc j) ↔ inFlow (carAt cars j) (s.pc j)) := by
    intro j hjn
    by_cases hji : j = i
    · rw [hji, hcar, hpci, hpc]
      unfold inFlow
      omega
    · rw [hpcj j hji]
  refine ⟨?_, ?_, ?_, ?_, ?_, ?_, ?_, ?_⟩
  · intro j hjn
    by_cases hji : j = i
    · rw [hji, hcar, hpci]
      have := script_length c
      omega
    · rw [hpcj j hji]; exact hInv.pc_le j hjn
  · intro q j hq
    have h := hInv.quad_holds q j hq
    exact ⟨h.1, by rw [hheld' j h.1]; exact h.2⟩
  · intro j hjn q hq
    rw [hheld' j hjn] at hq
    exact hInv.holds_quad j hjn q hq
  · intro j hjn hf
    rw [hflow' j hjn] at hf
    exact hInv.flow_owner j hjn hf
  · intro d'
    show s.count d' = _
    rw [flowSet_eq_of_pc cars s s' d' hflow']
    exact hInv.count_eq d'
  · exact hInv.cur_pos
  · intro d'
    by_cases hdd : d' = dIdx c
    · subst hdd
      have hcard := card_filter_update cars.length i hi
        (fun j => dIdx (carAt cars j) = dIdx c ∧ holHeld (carAt cars j) (s.pc j))
        (fun j => dIdx (carAt cars j) = dIdx c ∧ holHeld (carAt cars j) (s'.pc j))
        (by
          intro j hj
          dsimp only
          rw [hpcj j hj])
      have hPi : dIdx (carAt cars i) = dIdx c ∧ holHeld (carAt cars i) (s.pc i) := by
        rw [hcar, hpc]
        exact ⟨rfl, by omega, by omega⟩
      have hQi : ¬ (dIdx (carAt cars i) = dIdx c ∧
          holHeld (carAt cars i) (s'.pc i)) := by
        rw [hcar, hpci]
        intro h
        have h2 : 2 * (qsOf c).length + 6 ≤ 2 * (qsOf c).length + 5 := h.2.2
        omega
      rw [if_pos hPi, if_neg hQi] at hcard
      have hold := hInv.hol_card (dIdx c)
      show Function.update s.hol (dIdx c) (s.hol (dIdx c) + 1) (dIdx c)
        + (holSet cars s' (dIdx c)).card = 1
      rw [Function.update_same]
      unfold holSet at hold ⊢
      omega
    · have hset : holSet cars s' d' = holSet cars s d' := by
        unfold holSet
        refine Finset.filter_congr (fun j hj => ?_)
        by_cases hji : j = i
        · constructor
          · intro h
            exfalso
            apply hdd
            rw [← h.1, hji, hcar]
          · intro h
            exfalso
            apply hdd
            rw [← h.1, hji, hcar]
        · rw [hpcj j hji]
      show Function.update s.hol (dIdx c) (s.hol (dIdx c) + 1) d'
        + (holSet cars s' d').card = 1
      rw [Function.update_noteq hdd _ _, hset]
      exact hInv.hol_card d'
  · intro j hsj
    have h := hInv.sleep_pc j hsj
    refine ⟨h.1, ?_, h.2.2⟩
    by_cases hji : j = i
    · exfalso
      have h21 := h.2.1
      rw [hji, hpc] at h21
      omega
    · rw [hpcj j hji]; exact h.2.1

/-- Preservation for `Pthread_mutex_lock(&quad[q])`. -/
theorem inv_lock (cars : List car_t) (s : SysState) (i j : Nat) (c : car_t)
    (hInv : Inv cars s) (hi : i < cars.length) (hcar : carAt cars i = c)
    (hj : j < (qsOf c).length) (hpc : s.pc i = 3 + j)
    (hguard : s.quad ((qsOf c)[j]) = none) :
    Inv cars { pcBump s i with
      quad := Function.update s.quad ((qsOf c)[j]) (some i) } := by
  set s' : SysState := { pcBump s i with
    quad := Function.update s.quad ((qsOf c)[j]) (some i) } with hs'
  have hpci : s'.pc i = 3 + j + 1 := by
    show Function.update s.pc i (s.pc i + 1) i = _
    rw [Function.update_same, hpc]
  have hpcj : ∀ j', j' ≠ i → s'.pc j' = s.pc j' := by
    intro j' hj'
    exact Function.update_noteq hj' _ _
  have hheld_old : locksHeld c (s.pc i) = (qsOf c).take j := by
    unfold locksHeld
    rw [hpc, (heldCount_lock (qsOf c).length j hj).1]
  have hheld_new : locksHeld c (s'.pc i) = (qsOf c).take (j + 1) := by
    unfold locksHeld
    rw [hpci, (heldCount_lock (qsOf c).length j hj).2]
  have hflow' : ∀ j', j' < cars.length →
      (inFlow (carAt cars j') (s'.pc j') ↔ inFlow (carAt cars j') (s.pc j')) := by
    intro j' hjn
    by_cases hji : j' = i
    · rw [hji, hcar, hpci, hpc]
      unfold inFlow
      omega
    · rw [hpcj j' hji]
  have hhol' : ∀ j', j' < cars.length →
      (holHeld (carAt cars j') (s'.pc j') ↔ holHeld (carAt cars j') (s.pc j')) := by
    intro j' hjn
    by_cases hji : j' = i
    · rw [hji, hcar, hpci, hpc]
      unfold holHeld
      omega
    · rw [hpcj j' hji]
  refine ⟨?_, ?_, ?_, ?_, ?_, ?_, ?_, ?_⟩
  · intro j' hjn
    by_cases hji : j' = i
    · rw [hji, hcar, hpci]
      have := script_length c
      omega
    · rw [hpcj j' hji]; exact hInv.pc_le j' hjn
  · intro q' i' hq'
    have hq2 : Function.update s.quad ((qsOf c)[j]) (some i) q' = some i' := hq'
    by_cases hqq : q' = (qsOf c)[j]
    · rw [hqq, Function.update_same] at hq2
      obtain rfl : i' = i := (Option.some.inj hq2).symm
      refine ⟨hi, ?_⟩
      rw [hcar, hheld_new, hqq]
      exact getElem_mem_take_succ (qsOf c) j hj
    · rw [Function.update_noteq hqq] at hq2
      have h := hInv.quad_holds q' i' hq2
      by_cases hii : i' = i
      · rw [hii, hcar, hheld_old] at h
        refine ⟨by rw [hii]; exact hi, ?_⟩
        rw [hii, hcar, hheld_new]
        exact take_subset_succ (qsOf c) j h.2
      · refine ⟨h.1, ?_⟩
        rw [hpcj i' hii]
        exact h.2
  · intro j' hjn q' hq'
    show Function.update s.quad ((qsOf c)[j]) (some i) q' = some j'
    by_cases hji : j' = i
    · rw [hji] at hq' ⊢
      rw [hcar, hheld_new] at hq'
      rcases (mem_take_succ_iff (qsOf c) j hj q').mp hq' with hmem | hEq
      · have hlt : q' < (qsOf c)[j] := mem_take_lt (qsOf_strict c) j hj q' hmem
        rw [Function.update_noteq (by omega)]
        exact hInv.holds_quad i hi q' (by rw [hcar, hheld_old]; exact hmem)
      · rw [hEq, Function.update_same]
    · rw [hpcj j' hji] at hq'
      have hold := hInv.holds_quad j' hjn q' hq'
      have hne : q' ≠ (qsOf c)[j] := by
        intro heq
        rw [heq, hguard] at hold
        exact Option.noConfusion hold
      rw [Function.update_noteq hne]
      exact hold
  · intro j' hjn hf
    rw [hflow' j' hjn] at hf
    exact hInv.flow_owner j' hjn hf
  · intro d'
    show s.count d' = _
    rw [flowSet_eq_of_pc cars s s' d' hflow']
    exact hInv.count_eq d'
  · exact hInv.cur_pos
  · intro d'
    show s.hol d' + _ = 1
    rw [holSet_eq_of_pc cars s s' d' hhol']
    exact hInv.hol_card d'
  · intro j' hsj
    have h := hInv.sleep_pc j' hsj
    refine ⟨h.1, ?_, h.2.2⟩
    by_cases hji : j' = i
    · exfalso
      have h21 := h.2.1
      rw [hji, hpc] at h21
      omega
    · rw [hpcj j' hji]; exact h.2.1

/-- Preservation for `Pthread_mutex_unlock(&quad[q])`. -/
theorem inv_unlock (cars : List car_t) (s : SysState) (i j : Nat) (c : car_t)
    (hInv : Inv cars s) (hi : i < cars.length) (hcar : carAt cars i = c)
    (hj : j < (qsOf c).length)
    (hpc : s.pc i = (qsOf c).length + 4 + j) :
    Inv cars { pcBump s i with
      quad := Function.update s.quad
        ((qsOf c).getD ((qsOf c).length - 1 - j) 0) none } := by
  have hm : (qsOf c).length - 1 - j < (qsOf c).length := by omega
  have hDg := List.getD_eq_getElem (qsOf c) 0 hm
  set s' : SysState := { pcBump s i with
    quad := Function.update s.quad
      ((qsOf c).getD ((qsOf c).length - 1 - j) 0) none } with hs'
  have hpci : s'.pc i = (qsOf c).length + 4 + j + 1 := by
    show Function.update s.pc i (s.pc i + 1) i = _
    rw [Function.update_same, hpc]
  have hpcj : ∀ j', j' ≠ i → s'.pc j' = s.pc j' := by
    intro j' hj'
    exact Function.update_noteq hj' _ _
  have hheld_old : locksHeld c (s.pc i) = (qsOf c).take ((qsOf c).length - j) := by
    unfold locksHeld
    rw [hpc, (heldCount_unlock (qsOf c).length j hj).1]
  have hheld_new : locksHeld c (s'.pc i)
      = (qsOf c).take ((qsOf c).length - j - 1) := by
    unfold locksHeld
    rw [hpci]
    have h2 := (heldCount_unlock (qsOf c).length j hj).2
    rw [show (qsOf c).length + 4 + j + 1 = (qsOf c).length + 4 + j + 1 from rfl]
    rw [h2]
  have hsucc : (qsOf c).length - 1 - j + 1 = (qsOf c).length - j := by omega
  have hQmem : (qsOf c).getD ((qsOf c).length - 1 - j) 0
      ∈ (qsOf c).take ((qsOf c).length - j) := by
    have h1 := getElem_mem_take_succ (qsOf c) ((qsOf c).length - 1 - j) hm
    rw [hsucc] at h1
    rw [← hDg] at h1
    exact h1
  have hQuad : s.quad ((qsOf c).getD ((qsOf c).length - 1 - j) 0) = some i := by
    apply hInv.holds_quad i hi
    rw [hcar, hheld_old]
    exact hQmem
  have hflow' : ∀ j', j' < cars.length →
      (inFlow (carAt cars j') (s'.pc j') ↔ inFlow (carAt cars j') (s.pc j')) := by
    intro j' hjn
    by_cases hji : j' = i
    · rw [hji, hcar, hpci, hpc]
      unfold inFlow
      omega
    · rw [hpcj j' hji]
  have hhol' : ∀ j', j' < cars.length →
      (holHeld (carAt cars j') (s'.pc j') ↔ holHeld (carAt cars j') (s.pc j')) := by
    intro j' hjn
    by_cases hji : j' = i
    · rw [hji, hcar, hpci, hpc]
      unfold holHeld
      omega
    · rw [hpcj j' hji]
  refine ⟨?_, ?_, ?_, ?_, ?_, ?_, ?_, ?_⟩
  · intro j' hjn
    by_cases hji : j' = i
    · rw [hji, hcar, hpci]
      have := script_length c
      omega
    · rw [hpcj j' hji]; exact hInv.pc_le j' hjn
  · intro q' i' hq'
    have hq2 : Function.update s.quad
        ((qsOf c).getD ((qsOf c).length - 1 - j) 0) none q' = some i' := hq'
    by_cases hqq : q' = (qsOf c).getD ((qsOf c).length - 1 - j) 0
    · rw [hqq, Function.update_same] at hq2
      exact Option.noConfusion hq2
    · rw [Function.update_noteq hqq] at hq2
      have h := hInv.quad_holds q' i' hq2
      by_cases hii : i' = i
      · rw [hii, hcar, hheld_old] at h
        refine ⟨by rw [hii]; exact hi, ?_⟩
        rw [hii, hcar, hheld_new]
        rw [← hsucc] at h
        rcases (mem_take_succ_iff (qsOf c) _ hm q').mp h.2 with hmem | hEq
        · have : (qsOf c).length - j - 1 = (qsOf c).length - 1 - j := by omega
          rw [this]
          exact hmem
        · rw [← hDg] at hEq
          exact absurd hEq hqq
      · refine ⟨h.1, ?_⟩
        rw [hpcj i' hii]
        exact h.2
  · intro j' hjn q' hq'
    show Function.update s.quad
      ((qsOf c).getD ((qsOf c).length - 1 - j) 0) none q' = some j'
    by_cases hji : j' = i
    · rw [hji] at hq' ⊢
      rw [hcar, hheld_new] at hq'
      have hmem' : q' ∈ (qsOf c).take ((qsOf c).length - 1 - j) := by
        have : (qsOf c).length - j - 1 = (qsOf c).length - 1 - j := by omega
        rw [this] at hq'
        exact hq'
      have hlt : q' < (qsOf c).getD ((qsOf c).length - 1 - j) 0 := by
        rw [hDg]
        exact mem_take_lt (qsOf_strict c) _ hm q' hmem'
      rw [Function.update_noteq (by omega)]
      apply hInv.holds_quad i hi
      rw [hcar, hheld_old, ← hsucc]
      exact take_subset_succ (qsOf c) _ hmem'
    · rw [hpcj j' hji] at hq'
      have hold := hInv.holds_quad j' hjn q' hq'
      have hne : q' ≠ (qsOf c).getD ((qsOf c).length - 1 - j) 0 := by
        intro heq
        rw [heq, hQuad] at hold
        have : j' = i := Option.some.inj hold.symm
        exact hji this
      rw [Function.update_noteq hne]
      exact hold
  · intro j' hjn hf
    rw [hflow' j' hjn] at hf
    exact hInv.flow_owner j' hjn hf
  · intro d'
    show s.count d' = _
    rw [flowSet_eq_of_pc cars s s' d' hflow']
    exact hInv.count_eq d'
  · exact hInv.cur_pos
  · intro d'
    show s.hol d' + _ = 1
    rw [holSet_eq_of_pc cars s s' d' hhol']
    exact hInv.hol_card d'
  · intro j' hsj
    have h := hInv.sleep_pc j' hsj
    refine ⟨h.1, ?_, h.2.2⟩
    by_cases hji : j' = i
    · exfalso
      have h21 := h.2.1
      rw [hji, hpc] at h21
      omega
    · rw [hpcj j' hji]; exact h.2.1

/-- Preservation for the `turn_lock` section of `ArriveIntersection` when
the intersection is free: take ownership (`current_direction = d`,
`flow_count[d] = 1`). -/
theorem inv_join_free (cars : List car_t) (s : SysState) (i : Nat) (c : car_t)
    (hv : ValidCars cars) (hInv : Inv cars s) (hi : i < cars.length)
    (hcar : carAt cars i = c) (hpc : s.pc i = 2)
    (hns : s.sleeping i = false) (hcur : s.cur = -1) :
    Inv cars { pcBump s i with
      cur := dIdxI c
      count := Function.update s.count (dIdx c) 1 } := by
  have hvd : validDir c.dirs.dir_original := hv c (hcar ▸ carAt_mem cars i hi)
  have hdd := dIdx_spec c hvd
  have hvall : ∀ j, j < cars.length →
      dIdxI (carAt cars j) = (dIdx (carAt cars j) : Int) ∧ dIdx (carAt cars j) < 4 :=
    fun j hjn => dIdx_spec _ (hv _ (carAt_mem cars j hjn))
  have hnoflow : ∀ j, j < cars.length → ¬ inFlow (carAt cars j) (s.pc j) := by
    intro j hjn hf
    have h1 := hInv.flow_owner j hjn hf
    rw [hcur, (hvall j hjn).1] at h1
    omega
  have hnosleep : ∀ j, s.sleeping j = false := by
    intro j
    cases hsj : s.sleeping j with
    | false => rfl
    | true => exact absurd hcur (hInv.sleep_pc j hsj).2.2.1
  set s' : SysState := { pcBump s i with
    cur := dIdxI c
    count := Function.update s.count (dIdx c) 1 } with hs'
  have hpci : s'.pc i = 3 := by
    show Function.update s.pc i (s.pc i + 1) i = 3
    rw [Function.update_same, hpc]
  have hpcj : ∀ j, j ≠ i → s'.pc j = s.pc j := by
    intro j hj
    exact Function.update_noteq hj _ _
  have hheld' : ∀ j, j < cars.length →
      locksHeld (carAt cars j) (s'.pc j) = locksHeld (carAt cars j) (s.pc j) := by
    intro j hjn
    by_cases hji : j = i
    · rw [hji, hpci, locksHeld_le3 _ 3 (by omega), locksHeld_le3 _ _ (by omega)]
    · rw [hpcj j hji]
  have hhol' : ∀ j, j < cars.length →
      (holHeld (carAt cars j) (s'.pc j) ↔ holHeld (carAt cars j) (s.pc j)) := by
    intro j hjn
    by_cases hji : j = i
    · rw [hji, hpci, hpc]
      unfold holHeld
      omega
    · rw [hpcj j hji]
  refine ⟨?_, ?_, ?_, ?_, ?_, ?_, ?_, ?_⟩
  · intro j hjn
    by_cases hji : j = i
    · rw [hji, hpci]
      have := script_length (carAt cars i)
      omega
    · rw [hpcj j hji]; exact hInv.pc_le j hjn
  · intro q j hq
    have h := hInv.quad_holds q j hq
    exact ⟨h.1, by rw [hheld' j h.1]; exact h.2⟩
  · intro j hjn q hq
    rw [hheld' j hjn] at hq
    exact hInv.holds_quad j hjn q hq
  · intro j hjn hf
    by_cases hji : j = i
    · rw [hji, hcar]
    · rw [hpcj j hji] at hf
      exact absurd hf (hnoflow j hjn)
  · intro d'
    by_cases hdd' : d' = dIdx c
    · subst hdd'
      have hcard := card_filter_update cars.length i hi
        (fun j => dIdx (carAt cars j) = dIdx c ∧ inFlow (carAt cars j) (s.pc j))
        (fun j => dIdx (carAt cars j) = dIdx c ∧ inFlow (carAt cars j) (s'.pc j))
        (by
          intro j hj
          dsimp only
          rw [hpcj j hj])
      have hPi : ¬ (dIdx (carAt cars i) = dIdx c ∧
          inFlow (carAt cars i) (s.pc i)) := by
        intro h
        have h2 : 3 ≤ s.pc i := h.2.1
        omega
      have hQi : dIdx (carAt cars i) = dIdx c ∧ inFlow (carAt cars i) (s'.pc i) := by
        rw [hcar, hpci]
        exact ⟨rfl, by omega, by omega⟩
      rw [if_neg hPi, if_pos hQi] at hcard
      have hempty : flowSet cars s (dIdx c) = ∅ := by
        refine Finset.filter_eq_empty_iff.mpr ?_
        intro j hj h
        rw [Finset.mem_range] at hj
        exact hnoflow j hj h.2
      have hc0 : (flowSet cars s (dIdx c)).card = 0 := by
        rw [hempty]; rfl
      show Function.update s.count (dIdx c) 1 (dIdx c)
        = ((flowSet cars s' (dIdx c)).card : Int)
      rw [Function.update_same]
      unfold flowSet at hc0 ⊢
      omega
    · have hset : flowSet cars s' d' = flowSet cars s d' := by
        unfold flowSet
        refine Finset.filter_congr (fun j hj => ?_)
        by_cases hji : j = i
        · constructor
          · intro h
            exfalso
            apply hdd'
            rw [← h.1, hji, hcar]
          · intro h
            exfalso
            apply hdd'
            rw [← h.1, hji, hcar]
        · rw [hpcj j hji]
      show Function.update s.count (dIdx c) 1 d'
        = ((flowSet cars s' d').card : Int)
      rw [Function.update_noteq hdd', hset]
      exact hInv.count_eq d'
  · intro _
    refine ⟨dIdx c, hdd.2, ?_, ?_⟩
    · show dIdxI c = _
      rw [hdd.1]
    · show 0 < Function.update s.count (dIdx c) 1 (dIdx c)
      rw [Function.update_same]
      omega
  · intro d'
    show s.hol d' + _ = 1
    rw [holSet_eq_of_pc cars s s' d' hhol']
    exact hInv.hol_card d'
  · intro j hsj
    exfalso
    have h1 : s.sleeping j = true := hsj
    rw [hnosleep j] at h1
    exact Bool.noConfusion h1

/-- Preservation for the `turn_lock` section of `ArriveIntersection` when
the intersection is already owned by this car's direction:
`flow_count[d]++`. -/
theorem inv_join_same (cars : List car_t) (s : SysState) (i : Nat) (c : car_t)
    (hv : ValidCars cars) (hInv : Inv cars s) (hi : i < cars.length)
    (hcar : carAt cars i = c) (hpc : s.pc i = 2)
    (hns : s.sleeping i = false) (hcur : s.cur = dIdxI c) :
    Inv cars { pcBump s i with
      count := Function.update s.count (dIdx c) (s.count (dIdx c) + 1) } := by
  have hvd : validDir c.dirs.dir_original := hv c (hcar ▸ carAt_mem cars i hi)
  have hdd := dIdx_spec c hvd
  set s' : SysState := { pcBump s i with
    count := Function.update s.count (dIdx c) (s.count (dIdx c) + 1) } with hs'
  have hpci : s'.pc i = 3 := by
    show Function.update s.pc i (s.pc i + 1) i = 3
    rw [Function.update_same, hpc]
  have hpcj : ∀ j, j ≠ i → s'.pc j = s.pc j := by
    intro j hj
    exact Function.update_noteq hj _ _
  have hheld' : ∀ j, j < cars.length →
      locksHeld (carAt cars j) (s'.pc j) = locksHeld (carAt cars j) (s.pc j) := by
    intro j hjn
    by_cases hji : j = i
    · rw [hji, hpci, locksHeld_le3 _ 3 (by omega), locksHeld_le3 _ _ (by omega)]
    · rw [hpcj j hji]
  have hhol' : ∀ j, j < cars.length →
      (holHeld (carAt cars j) (s'.pc j) ↔ holHeld (carAt cars j) (s.pc j)) := by
    intro j hjn
    by_cases hji : j = i
    · rw [hji, hpci, hpc]
      unfold holHeld
      omega
    · rw [hpcj j hji]
  refine ⟨?_, ?_, ?_, ?_, ?_, ?_, ?_, ?_⟩
  · intro j hjn
    by_cases hji : j = i
    · rw [hji, hpci]
      have := script_length (carAt cars i)
      omega
    · rw [hpcj j hji]; exact hInv.pc_le j hjn
  · intro q j hq
    have h := hInv.quad_holds q j hq
    exact ⟨h.1, by rw [hheld' j h.1]; exact h.2⟩
  · intro j hjn q hq
    rw [hheld' j hjn] at hq
    exact hInv.holds_quad j hjn q hq
  · intro j hjn hf
    by_cases hji : j = i
    · rw [hji, hcar]
      exact hcur
    · rw [hpcj j hji] at hf
      exact hInv.flow_owner j hjn hf
  · intro d'
    by_cases hdd' : d' = dIdx c
    · subst hdd'
      have hcard := card_filter_update cars.length i hi
        (fun j => dIdx (carAt cars j) = dIdx c ∧ inFlow (carAt cars j) (s.pc j))
        (fun j => dIdx (carAt cars j) = dIdx c ∧ inFlow (carAt cars j) (s'.pc j))
        (by
          intro j hj
          dsimp only
          rw [hpcj j hj])
      have hPi : ¬ (dIdx (carAt cars i) = dIdx c ∧
          inFlow (carAt cars i) (s.pc i)) := by
        intro h
        have h2 : 3 ≤ s.pc i := h.2.1
        omega
      have hQi : dIdx (carAt cars i) = dIdx c ∧ inFlow (carAt cars i) (s'.pc i) := by
        rw [hcar, hpci]
        exact ⟨rfl, by omega, by omega⟩
      rw [if_neg hPi, if_pos hQi] at hcard
      have hold : s.count (dIdx c)
          = (((Finset.range cars.length).filter
              (fun j => dIdx (carAt cars j) = dIdx c ∧
                inFlow (carAt cars j) (s.pc j))).card : Int) :=
        hInv.count_eq (dIdx c)
      show Function.update s.count (dIdx c) (s.count (dIdx c) + 1) (dIdx c)
        = (((Finset.range cars.length).filter
            (fun j => dIdx (carAt cars j) = dIdx c ∧
              inFlow (carAt cars j) (s'.pc j))).card : Int)
      rw [Function.update_same, hold]
      omega
    · have hset : flowSet cars s' d' = flowSet cars s d' := by
        unfold flowSet
        refine Finset.filter_congr (fun j hj => ?_)
        by_cases hji : j = i
        · constructor
          · intro h
            exfalso
            apply hdd'
            rw [← h.1, hji, hcar]
          · intro h
            exfalso
            apply hdd'
            rw [← h.1, hji, hcar]
        · rw [hpcj j hji]
      show Function.update s.count (dIdx c) (s.count (dIdx c) + 1) d'
        = ((flowSet cars s' d').card : Int)
      rw [Function.update_noteq hdd', hset]
      exact hInv.count_eq d'
  · intro _
    refine ⟨dIdx c, hdd.2, ?_, ?_⟩
    · show s.cur = _
      rw [hcur, hdd.1]
    · show 0 < Function.update s.count (dIdx c) (s.count (dIdx c) + 1) (dIdx c)
      rw [Function.update_same, hInv.count_eq (dIdx c)]
      omega
  · intro d'
    show s.hol d' + _ = 1
    rw [holSet_eq_of_pc cars s s' d' hhol']
    exact hInv.hol_card d'
  · intro j hsj
    have h := hInv.sleep_pc j hsj
    refine ⟨h.1, ?_, h.2.2⟩
    by_cases hji : j = i
    · exfalso
      rw [hji] at hsj
      have hsj2 : s.sleeping i = true := hsj
      rw [hns] at hsj2
      exact Bool.noConfusion hsj2
    · rw [hpcj j hji]; exact h.2.1

/-- Preservation for the `turn_lock` section of `ArriveIntersection` when
another direction owns the intersection: the thread parks itself on
`turn_cv` and changes nothing else. -/
theorem inv_join_sleep (cars : List car_t) (s : SysState) (i : Nat) (c : car_t)
    (hInv : Inv cars s) (hi : i < cars.length)
    (hcar : carAt cars i = c) (hpc : s.pc i = 2)
    (hcur1 : s.cur ≠ -1) (hcur2 : s.cur ≠ dIdxI c) :
    Inv cars { s with sleeping := Function.update s.sleeping i true } := by
  set s' : SysState := { s with
    sleeping := Function.update s.sleeping i true } with hs'
  have hpcs : s'.pc = s.pc := rfl
  have hflow' : ∀ j, j < cars.length →
      (inFlow (carAt cars j) (s'.pc j) ↔ inFlow (carAt cars j) (s.pc j)) := by
    intro j hjn
    rw [hpcs]
  have hhol' : ∀ j, j < cars.length →
      (holHeld (carAt cars j) (s'.pc j) ↔ holHeld (carAt cars j) (s.pc j)) := by
    intro j hjn
    rw [hpcs]
  refine ⟨?_, ?_, ?_, ?_, ?_, ?_, ?_, ?_⟩
  · intro j hjn
    rw [hpcs]
    exact hInv.pc_le j hjn
  · intro q j hq
    have h := hInv.quad_holds q j hq
    exact ⟨h.1, by rw [hpcs]; exact h.2⟩
  · intro j hjn q hq
    rw [hpcs] at hq
    exact hInv.holds_quad j hjn q hq
  · intro j hjn hf
    rw [hpcs] at hf
    exact hInv.flow_owner j hjn hf
  · intro d'
    show s.count d' = _
    rw [flowSet_eq_of_pc cars s s' d' hflow']
    exact hInv.count_eq d'
  · exact hInv.cur_pos
  · intro d'
    show s.hol d' + _ = 1
    rw [holSet_eq_of_pc cars s s' d' hhol']
    exact hInv.hol_card d'
  · intro j hsj
    by_cases hji : j = i
    · refine ⟨by rw [hji]; exact hi, by rw [hpcs, hji]; exact hpc, hcur1, ?_⟩
      rw [hji, hcar]
      exact hcur2
    · have hsj' : s.sleeping j = true := by
        have : Function.update s.sleeping i true j = s.sleeping j :=
          Function.update_noteq hji _ _
        rw [← this]
        exact hsj
      have h := hInv.sleep_pc j hsj'
      exact ⟨h.1, by rw [hpcs]; exact h.2.1, h.2.2⟩

/-- Preservation for the `turn_lock` section of `ExitIntersection` when
the decremented count reaches 0: release ownership
(`current_direction = -1`) and broadcast on `turn_cv`. -/
theorem inv_leave_zero (cars : List car_t) (s : SysState) (i : Nat) (c : car_t)
    (hv : ValidCars cars) (hInv : Inv cars s) (hi : i < cars.length)
    (hcar : carAt cars i = c)
    (hpc : s.pc i = 2 * (qsOf c).length + 4)
    (hcnt : s.count (dIdx c) - 1 = 0) :
    Inv cars { pcBump s i with
      count := Function.update s.count (dIdx c) (s.count (dIdx c) - 1)
      cur := -1
      sleeping := fun _ => false } := by
  have hvd : validDir c.dirs.dir_original := hv c (hcar ▸ carAt_mem cars i hi)
  have hdd := dIdx_spec c hvd
  have hiflow : inFlow (carAt cars i) (s.pc i) := by
    rw [hcar, hpc]
    exact ⟨by omega, by omega⟩
  have hcuri : s.cur = dIdxI c := by
    have h := hInv.flow_owner i hi hiflow
    rw [hcar] at h
    exact h
  have hflow_dir : ∀ j, j < cars.length →
      inFlow (carAt cars j) (s.pc j) → dIdx (carAt cars j) = dIdx c := by
    intro j hjn hf
    have h1 := hInv.flow_owner j hjn hf
    have h2 : dIdxI (carAt cars j) = dIdxI c := by rw [← h1, hcuri]
    have hv1 := dIdx_spec _ (hv _ (carAt_mem cars j hjn))
    rw [hv1.1, hdd.1] at h2
    exact_mod_cast h2
  have hzero : ∀ d', d' ≠ dIdx c → s.count d' = 0 := by
    intro d' hdd'
    rw [hInv.count_eq d']
    have hemp : flowSet cars s d' = ∅ := by
      refine Finset.filter_eq_empty_iff.mpr ?_
      intro j hj h
      exact hdd' (by rw [← h.1]; exact hflow_dir j (Finset.mem_range.mp hj) h.2)
    rw [hemp]
    rfl
  set s' : SysState := { pcBump s i with
    count := Function.update s.count (dIdx c) (s.count (dIdx c) - 1)
    cur := -1
    sleeping := fun _ => false } with hs'
  have hpci : s'.pc i = 2 * (qsOf c).length + 5 := by
    show Function.update s.pc i (s.pc i + 1) i = _
    rw [Function.update_same, hpc]
  have hpcj : ∀ j, j ≠ i → s'.pc j = s.pc j := by
    intro j hj
    exact Function.update_noteq hj _ _
  have hheld' : ∀ j, j < cars.length →
      locksHeld (carAt cars j) (s'.pc j) = locksHeld (carAt cars j) (s.pc j) := by
    intro j hjn
    by_cases hji : j = i
    · rw [hji, hcar, hpci, hpc, locksHeld_after _ _ (by omega),
        locksHeld_after _ _ (by omega)]
    · rw [hpcj j hji]
  have hhol' : ∀ j, j < cars.length →
      (holHeld (carAt cars j) (s'.pc j) ↔ holHeld (carAt cars j) (s.pc j)) := by
    intro j hjn
    by_cases hji : j = i
    · rw [hji, hcar, hpci, hpc]
      unfold holHeld
      omega
    · rw [hpcj j hji]
  have hcard := card_filter_update cars.length i hi
    (fun j => dIdx (carAt cars j) = dIdx c ∧ inFlow (carAt cars j) (s.pc j))
    (fun j => dIdx (carAt cars j) = dIdx c ∧ inFlow (carAt cars j) (s'.pc j))
    (by
      intro j hj
      dsimp only
      rw [hpcj j hj])
  have hPi : dIdx (carAt cars i) = dIdx c ∧ inFlow (carAt cars i) (s.pc i) :=
    ⟨by rw [hcar], hiflow⟩
  have hQi : ¬ (dIdx (carAt cars i) = dIdx c ∧ inFlow (carAt cars i) (s'.pc i)) := by
    intro h
    have h2 := h.2.2
    rw [hcar, hpci] at h2
    omega
  rw [if_pos hPi, if_neg hQi] at hcard
  have hcount : s.count (dIdx c)
      = (((Finset.range cars.length).filter
          (fun j => dIdx (carAt cars j) = dIdx c ∧
            inFlow (carAt cars j) (s.pc j))).card : Int) :=
    hInv.count_eq (dIdx c)
  have hcardP1 : ((Finset.range cars.length).filter
      (fun j => dIdx (carAt cars j) = dIdx c ∧
        inFlow (carAt cars j) (s.pc j))).card = 1 := by
    omega
  have hcardQ0 : ((Finset.range cars.length).filter
      (fun j => dIdx (carAt cars j) = dIdx c ∧
        inFlow (carAt cars j) (s'.pc j))).card = 0 := by
    omega
  have hnoflow' : ∀ j, j < cars.length → ¬ inFlow (carAt cars j) (s'.pc j) := by
    intro j hjn hf
    by_cases hji : j = i
    · rw [hji, hcar, hpci] at hf
      have h2 := hf.2
      omega
    · have hfold : inFlow (carAt cars j) (s.pc j) := by
        rw [← hpcj j hji]
        exact hf
      have hmem : j ∈ (Finset.range cars.length).filter
          (fun j => dIdx (carAt cars j) = dIdx c ∧
            inFlow (carAt cars j) (s'.pc j)) :=
        Finset.mem_filter.mpr ⟨Finset.mem_range.mpr hjn,
          hflow_dir j hjn hfold, hf⟩
      have := Finset.card_pos.mpr ⟨j, hmem⟩
      omega
  refine ⟨?_, ?_, ?_, ?_, ?_, ?_, ?_, ?_⟩
  · intro j hjn
    by_cases hji : j = i
    · rw [hji, hcar, hpci]
      have := script_length c
      omega
    · rw [hpcj j hji]; exact hInv.pc_le j hjn
  · intro q j hq
    have h := hInv.quad_holds q j hq
    exact ⟨h.1, by rw [hheld' j h.1]; exact h.2⟩
  · intro j hjn q hq
    rw [hheld' j hjn] at hq
    exact hInv.holds_quad j hjn q hq
  · intro j hjn hf
    exact absurd hf (hnoflow' j hjn)
  · intro d'
    by_cases hdd' : d' = dIdx c
    · subst hdd'
      show Function.update s.count (dIdx c) (s.count (dIdx c) - 1) (dIdx c)
        = (((Finset.range cars.length).filter
            (fun j => dIdx (carAt cars j) = dIdx c ∧
              inFlow (carAt cars j) (s'.pc j))).card : Int)
      rw [Function.update_same, hcardQ0]
      omega
    · have hset : flowSet cars s' d' = flowSet cars s d' := by
        unfold flowSet
        refine Finset.filter_congr (fun j hj => ?_)
        by_cases hji : j = i
        · constructor
          · intro h
            exfalso
            apply hdd'
            rw [← h.1, hji, hcar]
          · intro h
            exfalso
            apply hdd'
            rw [← h.1, hji, hcar]
        · rw [hpcj j hji]
      show Function.update s.count (dIdx c) (s.count (dIdx c) - 1) d'
        = ((flowSet cars s' d').card : Int)
      rw [Function.update_noteq hdd', hset]
      exact hInv.count_eq d'
  · intro h
    exact absurd rfl h
  · intro d'
    show s.hol d' + _ = 1
    rw [holSet_eq_of_pc cars s s' d' hhol']
    exact hInv.hol_card d'
  · intro j hsj
    exact Bool.noConfusion (hsj : (false : Bool) = true)

/-- Preservation for the `turn_lock` section of `ExitIntersection` when
cars of this direction remain: only the count is decremented. -/
theorem inv_leave_pos (cars : List car_t) (s : SysState) (i : Nat) (c : car_t)
    (hv : ValidCars cars) (hInv : Inv cars s) (hi : i < cars.length)
    (hcar : carAt cars i = c)
    (hpc : s.pc i = 2 * (qsOf c).length + 4)
    (hcnt : ¬ s.count (dIdx c) - 1 = 0) :
    Inv cars { pcBump s i with
      count := Function.update s.count (dIdx c) (s.count (dIdx c) - 1) } := by
  have hvd : validDir c.dirs.dir_original := hv c (hcar ▸ carAt_mem cars i hi)
  have hdd := dIdx_spec c hvd
  have hiflow : inFlow (carAt cars i) (s.pc i) := by
    rw [hcar, hpc]
    exact ⟨by omega, by omega⟩
  have hcuri : s.cur = dIdxI c := by
    have h := hInv.flow_owner i hi hiflow
    rw [hcar] at h
    exact h
  set s' : SysState := { pcBump s i with
    count := Function.update s.count (dIdx c) (s.count (dIdx c) - 1) } with hs'
  have hpci : s'.pc i = 2 * (qsOf c).length + 5 := by
    show Function.update s.pc i (s.pc i + 1) i = _
    rw [Function.update_same, hpc]
  have hpcj : ∀ j, j ≠ i → s'.pc j = s.pc j := by
    intro j hj
    exact Function.update_noteq hj _ _
  have hheld' : ∀ j, j < cars.length →
      locksHeld (carAt cars j) (s'.pc j) = locksHeld (carAt cars j) (s.pc j) := by
    intro j hjn
    by_cases hji : j = i
    · rw [hji, hcar, hpci, hpc, locksHeld_after _ _ (by omega),
        locksHeld_after _ _ (by omega)]
    · rw [hpcj j hji]
  have hhol' : ∀ j, j < cars.length →
      (holHeld (carAt cars j) (s'.pc j) ↔ holHeld (carAt cars j) (s.pc j)) := by
    intro j hjn
    by_cases hji : j = i
    · rw [hji, hcar, hpci, hpc]
      unfold holHeld
      omega
    · rw [hpcj j hji]
  have hcard := card_filter_update cars.length i hi
    (fun j => dIdx (carAt cars j) = dIdx c ∧ inFlow (carAt cars j) (s.pc j))
    (fun j => dIdx (carAt cars j) = dIdx c ∧ inFlow (carAt cars j) (s'.pc j))
    (by
      intro j hj
      dsimp only
      rw [hpcj j hj])
  have hPi : dIdx (carAt cars i) = dIdx c ∧ inFlow (carAt cars i) (s.pc i) :=
    ⟨by rw [hcar], hiflow⟩
  have hQi : ¬ (dIdx (carAt cars i) = dIdx c ∧ inFlow (carAt cars i) (s'.pc i)) := by
    intro h
    have h2 := h.2.2
    rw [hcar, hpci] at h2
    omega
  rw [if_pos hPi, if_neg hQi] at hcard
  have hcount : s.count (dIdx c)
      = (((Finset.range cars.length).filter
          (fun j => dIdx (carAt cars j) = dIdx c ∧
            inFlow (carAt cars j) (s.pc j))).card : Int) :=
    hInv.count_eq (dIdx c)
  refine ⟨?_, ?_, ?_, ?_, ?_, ?_, ?_, ?_⟩
  · intro j hjn
    by_cases hji : j = i
    · rw [hji, hcar, hpci]
      have := script_length c
      omega
    · rw [hpcj j hji]; exact hInv.pc_le j hjn
  · intro q j hq
    have h := hInv.quad_holds q j hq
    exact ⟨h.1, by rw [hheld' j h.1]; exact h.2⟩
  · intro j hjn q hq
    rw [hheld' j hjn] at hq
    exact hInv.holds_quad j hjn q hq
  · intro j hjn hf
    by_cases hji : j = i
    · exfalso
      rw [hji, hcar, hpci] at hf
      have h2 := hf.2
      omega
    · rw [hpcj j hji] at hf
      exact hInv.flow_owner j hjn hf
  · intro d'
    by_cases hdd' : d' = dIdx c
    · subst hdd'
      show Function.update s.count (dIdx c) (s.count (dIdx c) - 1) (dIdx c)
        = (((Finset.range cars.length).filter
            (fun j => dIdx (carAt cars j) = dIdx c ∧
              inFlow (carAt cars j) (s'.pc j))).card : Int)
      rw [Function.update_same, hcount]
      omega
    · have hset : flowSet cars s' d' = flowSet cars s d' := by
        unfold flowSet
        refine Finset.filter_congr (fun j hj => ?_)
        by_cases hji : j = i
        · constructor
          · intro h
            exfalso
            apply hdd'
            rw [← h.1, hji, hcar]
          · intro h
            exfalso
            apply hdd'
            rw [← h.1, hji, hcar]
        · rw [hpcj j hji]
      show Function.update s.count (dIdx c) (s.count (dIdx c) - 1) d'
        = ((flowSet cars s' d').card : Int)
      rw [Function.update_noteq hdd', hset]
      exact hInv.count_eq d'
  · intro _
    refine ⟨dIdx c, hdd.2, ?_, ?_⟩
    · show s.cur = _
      rw [hcuri, hdd.1]
    · show 0 < Function.update s.count (dIdx c) (s.count (dIdx c) - 1) (dIdx c)
      rw [Function.update_same]
      rw [hcount] at hcnt ⊢
      omega
  · intro d'
    show s.hol d' + _ = 1
    rw [holSet_eq_of_pc cars s s' d' hhol']
    exact hInv.hol_card d'
  · intro j hsj
    have hsj2 : s.sleeping j = true := hsj
    have h := hInv.sleep_pc j hsj2
    refine ⟨h.1, ?_, h.2.2⟩
    by_cases hji : j = i
    · exfalso
      have h21 := h.2.1
      rw [hji, hpc] at h21
      omega
    · rw [hpcj j hji]; exact h.2.1

/-- The invariant holds in the state set up by `main`. -/
theorem Inv_init (cars : List car_t) : Inv cars initSt := by
  refine ⟨?_, ?_, ?_, ?_, ?_, ?_, ?_, ?_⟩
  · intro j hjn
    exact Nat.zero_le _
  · intro q j hq
    exact Option.noConfusion hq
  · intro j hjn q hq
    have hq2 : q ∈ locksHeld (carAt cars j) 0 := hq
    rw [locksHeld_le3 _ 0 (by omega)] at hq2
    exact absurd hq2 (List.not_mem_nil q)
  · intro j hjn hf
    have h1 : (3 : Nat) ≤ 0 := hf.1
    omega
  · intro d
    have hemp : flowSet cars initSt d = ∅ := by
      refine Finset.filter_eq_empty_iff.mpr ?_
      intro j hj h
      have h1 : (3 : Nat) ≤ 0 := h.2.1
      omega
    rw [hemp]
    rfl
  · intro h
    exact absurd rfl h
  · intro d
    have hemp : holSet cars initSt d = ∅ := by
      refine Finset.filter_eq_empty_iff.mpr ?_
      intro j hj h
      have h1 : (2 : Nat) ≤ 0 := h.2.1
      omega
    rw [hemp]
    rfl
  · intro j hsj
    exact Bool.noConfusion (hsj : (false : Bool) = true)

/-- One step of any thread preserves the invariant. -/
theorem Inv_step (cars : List car_t) (s s' : SysState) (i : Nat)
    (hv : ValidCars cars) (hInv : Inv cars s)
    (h : stepi cars i s = some s') : Inv cars s' := by
  unfold stepi at h
  split at h
  case isFalse => exact Option.noConfusion h
  case isTrue hi =>
    cases hget : (script (carAt cars i))[s.pc i]? with
    | none =>
      rw [hget] at h
      exact Option.noConfusion h
    | some a =>
      rw [hget] at h
      have hlt : s.pc i < (script (carAt cars i)).length :=
        (List.getElem?_eq_some.mp hget).1
      rcases script_get_cases (carAt cars i) (s.pc i) a hget with
        ⟨hp, rfl⟩ | ⟨hp, rfl⟩ | ⟨hp, rfl⟩ | ⟨j, hj, hp, rfl⟩ | ⟨hp, rfl⟩ |
        ⟨j, hj, hp, rfl⟩ | ⟨hp, rfl⟩ | ⟨hp, rfl⟩
      · -- sleepA
        simp only [doAct] at h
        obtain rfl : s' = pcBump s i := (Option.some.inj h).symm
        refine Inv_bump_pure cars s i hInv hi hlt (by omega) ?_ ?_ ?_
        · rw [hp, locksHeld_le3 _ 1 (by omega), locksHeld_le3 _ 0 (by omega)]
        · rw [hp]
          unfold inFlow
          omega
        · rw [hp]
          unfold holHeld
          omega
      · -- holWait
        simp only [doAct] at h
        split at h
        case isTrue hguard =>
          obtain rfl := (Option.some.inj h).symm
          exact inv_holWait cars s i hInv hi hp hguard
        case isFalse => exact Option.noConfusion h
      · -- joinA
        simp only [doAct] at h
        split at h
        case isTrue => exact Option.noConfusion h
        case isFalse hns =>
          have hns' : s.sleeping i = false := by
            cases hb : s.sleeping i with
            | false => rfl
            | true => exact absurd hb hns
          split at h
          case isTrue hcur =>
            obtain rfl := (Option.some.inj h).symm
            exact inv_join_free cars s i (carAt cars i) hv hInv hi rfl hp hns' hcur
          case isFalse hcur1 =>
            split at h
            case isTrue hcur =>
              obtain rfl := (Option.some.inj h).symm
              exact inv_join_same cars s i (carAt cars i) hv hInv hi rfl hp hns' hcur
            case isFalse hcur2 =>
              obtain rfl := (Option.some.inj h).symm
              exact inv_join_sleep cars s i (carAt cars i) hInv hi rfl hp hcur1 hcur2
      · -- lockQ
        simp only [doAct] at h
        split at h
        case _ hguard =>
          obtain rfl := (Option.some.inj h).symm
          exact inv_lock cars s i j (carAt cars i) hInv hi rfl hj hp hguard
        case _ => exact Option.noConfusion h
      · -- spinA
        simp only [doAct] at h
        obtain rfl : s' = pcBump s i := (Option.some.inj h).symm
        refine Inv_bump_pure cars s i hInv hi hlt (by omega) ?_ ?_ ?_
        · unfold locksHeld
          rw [hp, show (qsOf (carAt cars i)).length + 3 + 1
              = (qsOf (carAt cars i)).length + 4 from rfl,
            (heldCount_spin (qsOf (carAt cars i)).length).1,
            (heldCount_spin (qsOf (carAt cars i)).length).2]
        · rw [hp]
          unfold inFlow
          omega
        · rw [hp]
          unfold holHeld
          omega
      · -- unlockQ
        simp only [doAct] at h
        obtain rfl := (Option.some.inj h).symm
        exact inv_unlock cars s i j (carAt cars i) hInv hi rfl hj hp
      · -- leaveA
        simp only [doAct] at h
        split at h
        case isTrue hcnt =>
          obtain rfl := (Option.some.inj h).symm
          exact inv_leave_zero cars s i (carAt cars i) hv hInv hi rfl hp hcnt
        case isFalse hcnt =>
          obtain rfl := (Option.some.inj h).symm
          exact inv_leave_pos cars s i (carAt cars i) hv hInv hi rfl hp hcnt
      · -- holPost
        simp only [doAct] at h
        obtain rfl := (Option.some.inj h).symm
        exact inv_holPost cars s i (carAt cars i) hInv hi rfl hp

/-- Every reachable state satisfies the invariant. -/
theorem reach_inv (cars : List car_t) (hv : ValidCars cars) (s : SysState)
    (hs : Reachable cars s) : Inv cars s := by
  induction hs with
  | refl => exact Inv_init cars
  | tail hab hbc ih =>
    obtain ⟨i, hi⟩ := hbc
    exact Inv_step cars _ _ i hv ih hi

/-! ## Deadlock freedom -/

theorem stepi_eq (cars : List car_t) (s : SysState) (i : Nat) (a : Action)
    (hi : i < cars.length)
    (ha : (script (carAt cars i))[s.pc i]? = some a) :
    stepi cars i s = doAct (carAt cars i) i a s := by
  unfold stepi
  rw [if_pos hi, ha]

/-- In a stuck state no quadrant mutex is held: the holder of the
highest held quadrant could always act (ascending acquisition order). -/
theorem stuck_no_quad (cars : List car_t) (s : SysState)
    (hInv : Inv cars s) (hstuck : ∀ i, stepi cars i s = none) :
    ∀ q, s.quad q = none := by
  by_contra hcon
  push_neg at hcon
  obtain ⟨q0, hq0⟩ := hcon
  have hne : ((Finset.range 4).filter (fun q => (s.quad q).isSome)).Nonempty := by
    obtain ⟨j0, hj0⟩ := Option.ne_none_iff_exists'.mp hq0
    have h := hInv.quad_holds q0 j0 hj0
    have hq04 : q0 < 4 :=
      qsOf_lt4 (carAt cars j0) q0 (List.take_subset _ _ h.2)
    exact ⟨q0, Finset.mem_filter.mpr ⟨Finset.mem_range.mpr hq04,
      Option.isSome_iff_exists.mpr ⟨j0, hj0⟩⟩⟩
  set H := (Finset.range 4).filter (fun q => (s.quad q).isSome) with hH
  have hQH := Finset.max'_mem H hne
  set Q := H.max' hne with hQdef
  have hQsome : (s.quad Q).isSome := (Finset.mem_filter.mp hQH).2
  obtain ⟨i, hQi⟩ := Option.isSome_iff_exists.mp hQsome
  have h := hInv.quad_holds Q i hQi
  have hi : i < cars.length := h.1
  have hQheld : Q ∈ locksHeld (carAt cars i) (s.pc i) := h.2
  have hcnt_pos : 0 < heldCount (qsOf (carAt cars i)).length (s.pc i) := by
    by_contra h0
    push_neg at h0
    have h00 : heldCount (qsOf (carAt cars i)).length (s.pc i) = 0 := by omega
    unfold locksHeld at hQheld
    rw [h00] at hQheld
    exact absurd hQheld (List.not_mem_nil Q)
  have hw := heldCount_pos_window _ _ hcnt_pos
  have hlt : s.pc i < (script (carAt cars i)).length := by
    rw [script_length]
    omega
  have ha : (script (carAt cars i))[s.pc i]?
      = some ((script (carAt cars i))[s.pc i]) :=
    List.getElem?_eq_some.mpr ⟨hlt, rfl⟩
  have hs := hstuck i
  rw [stepi_eq cars s i _ hi ha] at hs
  rcases script_get_cases (carAt cars i) (s.pc i) _ ha with
    ⟨hp, _⟩ | ⟨hp, _⟩ | ⟨hp, _⟩ | ⟨j, hj, hp, hact⟩ | ⟨hp, hact⟩ |
    ⟨j, hj, hp, hact⟩ | ⟨hp, hact⟩ | ⟨hp, hact⟩
  · omega
  · omega
  · omega
  · -- blocked at lockQ: the wanted quadrant is held, but it is larger
    -- than every quadrant this thread holds, including the maximum Q
    rw [hact] at hs
    simp only [doAct] at hs
    have hq' : ∃ j', s.quad ((qsOf (carAt cars i))[j]) = some j' := by
      cases hqx : s.quad ((qsOf (carAt cars i))[j]) with
      | none =>
        rw [hqx] at hs
        exact Option.noConfusion hs
      | some j' => exact ⟨j', rfl⟩
    obtain ⟨j', hj'⟩ := hq'
    have hmemH : (qsOf (carAt cars i))[j] ∈ H := by
      refine Finset.mem_filter.mpr ⟨Finset.mem_range.mpr ?_, ?_⟩
      · exact qsOf_lt4 _ _ (List.getElem_mem hj)
      · exact Option.isSome_iff_exists.mpr ⟨j', hj'⟩
    have hle : (qsOf (carAt cars i))[j] ≤ Q := Finset.le_max' H _ hmemH
    have hQtake : Q ∈ (qsOf (carAt cars i)).take j := by
      unfold locksHeld at hQheld
      have hc1 : heldCount (qsOf (carAt cars i)).length (s.pc i) = j := by
        rw [hp]
        exact (heldCount_lock _ j hj).1
      rw [hc1] at hQheld
      exact hQheld
    have hQlt : Q < (qsOf (carAt cars i))[j] :=
      mem_take_lt (qsOf_strict _) j hj Q hQtake
    omega
  · rw [hact] at hs
    simp only [doAct] at hs
    exact Option.noConfusion hs
  · rw [hact] at hs
    simp only [doAct] at hs
    exact Option.noConfusion hs
  · omega
  · omega

/-- In a stuck state no thread is inside the flow (between join and
leave): such a thread could always act. -/
theorem stuck_noflow (cars : List car_t) (s : SysState)
    (hInv : Inv cars s) (hstuck : ∀ i, stepi cars i s = none) :
    ∀ j, j < cars.length → ¬ inFlow (carAt cars j) (s.pc j) := by
  intro j hjn hf
  have hf1 : 3 ≤ s.pc j := hf.1
  have hf2 : s.pc j ≤ 2 * (qsOf (carAt cars j)).length + 4 := hf.2
  have hlt : s.pc j < (script (carAt cars j)).length := by
    rw [script_length]
    omega
  have ha : (script (carAt cars j))[s.pc j]?
      = some ((script (carAt cars j))[s.pc j]) :=
    List.getElem?_eq_some.mpr ⟨hlt, rfl⟩
  have hs := hstuck j
  rw [stepi_eq cars s j _ hjn ha] at hs
  rcases script_get_cases (carAt cars j) (s.pc j) _ ha with
    ⟨hp, _⟩ | ⟨hp, _⟩ | ⟨hp, _⟩ | ⟨j', hj', hp, hact⟩ | ⟨hp, hact⟩ |
    ⟨j', hj', hp, hact⟩ | ⟨hp, hact⟩ | ⟨hp, hact⟩
  · omega
  · omega
  · omega
  · rw [hact] at hs
    simp only [doAct] at hs
    rw [stuck_no_quad cars s hInv hstuck] at hs
    exact Option.noConfusion hs
  · rw [hact] at hs
    simp only [doAct] at hs
    exact Option.noConfusion hs
  · rw [hact] at hs
    simp only [doAct] at hs
    exact Option.noConfusion hs
  · rw [hact] at hs
    simp only [doAct] at hs
    split at hs
    · exact Option.noConfusion hs
    · exact Option.noConfusion hs
  · omega

/-- In a stuck state no thread sleeps on `turn_cv`: a sleeper implies an
owning direction with a positive count, hence a car inside the flow. -/
theorem stuck_nosleep (cars : List car_t) (s : SysState)
    (hInv : Inv cars s) (hstuck : ∀ i, stepi cars i s = none) :
    ∀ j, s.sleeping j = false := by
  intro j
  cases hb : s.sleeping j with
  | false => rfl
  | true =>
    exfalso
    have h := hInv.sleep_pc j hb
    obtain ⟨d, hd4, hcd, hpos⟩ := hInv.cur_pos h.2.2.1
    rw [hInv.count_eq d] at hpos
    have hcpos : 0 < (flowSet cars s d).card := by omega
    obtain ⟨j', hj'⟩ := Finset.card_pos.mp hcpos
    have hj'2 := Finset.mem_filter.mp hj'
    exact stuck_noflow cars s hInv hstuck j'
      (Finset.mem_range.mp hj'2.1) hj'2.2.2

/-- In a stuck state no thread is parked at the `joinA` action: awake at
`joinA`, it can always either join or go to sleep. -/
theorem stuck_not2 (cars : List car_t) (s : SysState)
    (hInv : Inv cars s) (hstuck : ∀ i, stepi cars i s = none) :
    ∀ j, j < cars.length → s.pc j ≠ 2 := by
  intro j hjn hp
  have ha : (script (carAt cars j))[s.pc j]? = some .joinA := by
    rw [hp]
    exact script_get_two _
  have hs := hstuck j
  rw [stepi_eq cars s j _ hjn ha] at hs
  simp only [doAct] at hs
  split at hs
  case isTrue hb =>
    rw [stuck_nosleep cars s hInv hstuck j] at hb
    exact Bool.noConfusion hb
  case isFalse =>
    split at hs
    · exact Option.noConfusion hs
    · split at hs
      · exact Option.noConfusion hs
      · exact Option.noConfusion hs

/-- A stuck state has every thread at the end of its script: the system
cannot halt with any car still in the intersection protocol. -/
theorem stuck_all_exited (cars : List car_t) (s : SysState)
    (hInv : Inv cars s) (hstuck : ∀ i, stepi cars i s = none) :
    AllExited cars s := by
  intro i hi
  by_contra hne
  have hle := hInv.pc_le i hi
  have hlt : s.pc i < (script (carAt cars i)).length := by omega
  have ha : (script (carAt cars i))[s.pc i]?
      = some ((script (carAt cars i))[s.pc i]) :=
    List.getElem?_eq_some.mpr ⟨hlt, rfl⟩
  have hs := hstuck i
  rw [stepi_eq cars s i _ hi ha] at hs
  rcases script_get_cases (carAt cars i) (s.pc i) _ ha with
    ⟨hp, hact⟩ | ⟨hp, hact⟩ | ⟨hp, _⟩ | ⟨j, hj, hp, hact⟩ | ⟨hp, hact⟩ |
    ⟨j, hj, hp, hact⟩ | ⟨hp, hact⟩ | ⟨hp, hact⟩
  · -- sleepA is always enabled
    rw [hact] at hs
    simp only [doAct] at hs
    exact Option.noConfusion hs
  · -- holWait: the token holder of this direction could act
    rw [hact] at hs
    simp only [doAct] at hs
    split at hs
    case isTrue => exact Option.noConfusion hs
    case isFalse hhol =>
      have hhol0 : s.hol (dIdx (carAt cars i)) = 0 := by omega
      have hcard := hInv.hol_card (dIdx (carAt cars i))
      rw [hhol0] at hcard
      have hc1 : 0 < (holSet cars s (dIdx (carAt cars i))).card := by omega
      obtain ⟨j', hj'⟩ := Finset.card_pos.mp hc1
      have hj'2 := Finset.mem_filter.mp hj'
      have hj'n : j' < cars.length := Finset.mem_range.mp hj'2.1
      have hh := hj'2.2.2
      have hh1 : 2 ≤ s.pc j' := hh.1
      have hh2 : s.pc j' ≤ 2 * (qsOf (carAt cars j')).length + 5 := hh.2
      have hcase : s.pc j' = 2 ∨
          (3 ≤ s.pc j' ∧ s.pc j' ≤ 2 * (qsOf (carAt cars j')).length + 4) ∨
          s.pc j' = 2 * (qsOf (carAt cars j')).length + 5 := by omega
      rcases hcase with hc | hc | hc
      · exact stuck_not2 cars s hInv hstuck j' hj'n hc
      · exact stuck_noflow cars s hInv hstuck j' hj'n hc
      · have haj : (script (carAt cars j'))[s.pc j']? = some .holPost := by
          rw [hc]
          exact script_get_post _
        have hsj := hstuck j'
        rw [stepi_eq cars s j' _ hj'n haj] at hsj
        simp only [doAct] at hsj
        exact Option.noConfusion hsj
  · exact stuck_not2 cars s hInv hstuck i hi hp
  · rw [hact] at hs
    simp only [doAct] at hs
    rw [stuck_no_quad cars s hInv hstuck] at hs
    exact Option.noConfusion hs
  · rw [hact] at hs
    simp only [doAct] at hs
    exact Option.noConfusion hs
  · rw [hact] at hs
    simp only [doAct] at hs
    exact Option.noConfusion hs
  · rw [hact] at hs
    simp only [doAct] at hs
    split at hs
    · exact Option.noConfusion hs
    · exact Option.noConfusion hs
  · rw [hact] at hs
    simp only [doAct] at hs
    exact Option.noConfusion hs

/-- A step that advances one program counter decreases the measure. -/
theorem meas_lt_of_bump (cars : List car_t) (s s' : SysState) (i : Nat)
    (hi : i < cars.length)
    (hlt : s.pc i < (script (carAt cars i)).length)
    (hpc : s'.pc = Function.update s.pc i (s.pc i + 1)) :
    meas cars s' < meas cars s := by
  have hsum := sum_range_update cars.length i hi
    (fun j => (script (carAt cars j)).length - s.pc j)
    (fun j => (script (carAt cars j)).length - s'.pc j)
    (by
      intro j hj
      dsimp only
      rw [hpc, Function.update_noteq hj])
  have hii : s'.pc i = s.pc i + 1 := by
    rw [hpc]
    exact Function.update_same _ _ _
  dsimp only at hsum
  rw [hii] at hsum
  have hfi : 0 < (script (carAt cars i)).length - s.pc i := by omega
  have hcard' : ((Finset.range cars.length).filter
      (fun j => s'.sleeping j = false)).card ≤ cars.length := by
    have h1 := Finset.card_filter_le (Finset.range cars.length)
      (fun j => s'.sleeping j = false)
    rw [Finset.card_range] at h1
    exact h1
  unfold meas
  set A := ∑ j ∈ Finset.range cars.length,
    ((script (carAt cars j)).length - s.pc j) with hA
  set B := ∑ j ∈ Finset.range cars.length,
    ((script (carAt cars j)).length - s'.pc j) with hB
  have hBA : B + 1 ≤ A ∧ A ≤ B + (script (carAt cars i)).length := by omega
  have hK : cars.length + 1 ≤ A * (cars.length + 1) :=
    Nat.le_mul_of_pos_left _ (by omega)
  have hmono : B * (cars.length + 1) + (cars.length + 1) ≤ A * (cars.length + 1) := by
    have : (B + 1) * (cars.length + 1) ≤ A * (cars.length + 1) :=
      Nat.mul_le_mul_right _ (by omega)
    calc B * (cars.length + 1) + (cars.length + 1)
        = (B + 1) * (cars.length + 1) := by ring
      _ ≤ A * (cars.length + 1) := this
  omega

/-- The go-to-sleep step decreases the measure (the number of awake
threads drops). -/
theorem meas_lt_of_sleep (cars : List car_t) (s s' : SysState) (i : Nat)
    (hi : i < cars.length) (hpc : s'.pc = s.pc)
    (hsleep : s'.sleeping = Function.update s.sleeping i true)
    (hns : s.sleeping i = false) :
    meas cars s' < meas cars s := by
  have hsum : (∑ j ∈ Finset.range cars.length,
      ((script (carAt cars j)).length - s'.pc j))
      = ∑ j ∈ Finset.range cars.length,
        ((script (carAt cars j)).length - s.pc j) := by
    refine Finset.sum_congr rfl (fun j _ => ?_)
    rw [hpc]
  have hcard := card_filter_update cars.length i hi
    (fun j => s.sleeping j = false)
    (fun j => s'.sleeping j = false)
    (by
      intro j hj
      dsimp only
      rw [hsleep, Function.update_noteq hj])
  have hPi : s.sleeping i = false := hns
  have hQi : ¬ s'.sleeping i = false := by
    rw [hsleep, Function.update_same]
    exact fun h => Bool.noConfusion h
  rw [if_pos hPi, if_neg hQi] at hcard
  unfold meas
  rw [hsum]
  omega

/-- Any enabled step decreases the measure. -/
theorem meas_step (cars : List car_t) (s s' : SysState) (i : Nat)
    (h : stepi cars i s = some s') : meas cars s' < meas cars s := by
  unfold stepi at h
  split at h
  case isFalse => exact Option.noConfusion h
  case isTrue hi =>
    cases hget : (script (carAt cars i))[s.pc i]? with
    | none =>
      rw [hget] at h
      exact Option.noConfusion h
    | some a =>
      rw [hget] at h
      have hlt : s.pc i < (script (carAt cars i)).length :=
        (List.getElem?_eq_some.mp hget).1
      cases a with
      | sleepA =>
        simp only [doAct] at h
        obtain rfl := (Option.some.inj h).symm
        exact meas_lt_of_bump cars s _ i hi hlt rfl
      | holWait =>
        simp only [doAct] at h
        split at h
        · obtain rfl := (Option.some.inj h).symm
          exact meas_lt_of_bump cars s _ i hi hlt rfl
        · exact Option.noConfusion h
      | joinA =>
        simp only [doAct] at h
        split at h
        case isTrue => exact Option.noConfusion h
        case isFalse hns =>
          have hns' : s.sleeping i = false := by
            cases hb : s.sleeping i with
            | false => rfl
            | true => exact absurd hb hns
          split at h
          · obtain rfl := (Option.some.inj h).symm
            exact meas_lt_of_bump cars s _ i hi hlt rfl
          · split at h
            · obtain rfl := (Option.some.inj h).symm
              exact meas_lt_of_bump cars s _ i hi hlt rfl
            · obtain rfl := (Option.some.inj h).symm
              exact meas_lt_of_sleep cars s _ i hi rfl rfl hns'
      | lockQ q =>
        simp only [doAct] at h
        split at h
        · obtain rfl := (Option.some.inj h).symm
          exact meas_lt_of_bump cars s _ i hi hlt rfl
        · exact Option.noConfusion h
      | spinA t =>
        simp only [doAct] at h
        obtain rfl := (Option.some.inj h).symm
        exact meas_lt_of_bump cars s _ i hi hlt rfl
      | unlockQ q =>
        simp only [doAct] at h
        obtain rfl := (Option.some.inj h).symm
        exact meas_lt_of_bump cars s _ i hi hlt rfl
      | leaveA =>
        simp only [doAct] at h
        split at h
        · obtain rfl := (Option.some.inj h).symm
          exact meas_lt_of_bump cars s _ i hi hlt rfl
        · obtain rfl := (Option.some.inj h).symm
          exact meas_lt_of_bump cars s _ i hi hlt rfl
      | holPost =>
        simp only [doAct] at h
        obtain rfl := (Option.some.inj h).symm
        exact meas_lt_of_bump cars s _ i hi hlt rfl

/-! ## Reaching concrete states of the witness system -/

theorem reach_sW4 : Reachable carsW sW4 :=
  Relation.ReflTransGen.tail
    (Relation.ReflTransGen.tail
      (Relation.ReflTransGen.tail
        (Relation.ReflTransGen.tail Relation.ReflTransGen.refl ⟨0, rfl⟩)
        ⟨0, rfl⟩)
      ⟨0, rfl⟩)
    ⟨0, rfl⟩

theorem reach_sW8 : Reachable carsW sW8 :=
  Relation.ReflTransGen.tail
    (Relation.ReflTransGen.tail
      (Relation.ReflTransGen.tail
        (Relation.ReflTransGen.tail reach_sW4 ⟨0, rfl⟩)
        ⟨0, rfl⟩)
      ⟨0, rfl⟩)
    ⟨0, rfl⟩

/-! ## Lock/unlock sequences of a script -/

theorem actLocks_append (l₁ l₂ : List Action) :
    actLocks (l₁ ++ l₂) = actLocks l₁ ++ actLocks l₂ := by
  unfold actLocks
  exact List.filterMap_append _ _ _

theorem actUnlocks_append (l₁ l₂ : List Action) :
    actUnlocks (l₁ ++ l₂) = actUnlocks l₁ ++ actUnlocks l₂ := by
  unfold actUnlocks
  exact List.filterMap_append _ _ _

theorem actLocks_map_lock (qs : List Nat) :
    actLocks (qs.map Action.lockQ) = qs := by
  induction qs with
  | nil => rfl
  | cons q l ih =>
    unfold actLocks at ih ⊢
    rw [List.map_cons, List.filterMap_cons]
    simp only []
    rw [ih]

theorem actLocks_map_unlock (qs : List Nat) :
    actLocks (qs.map Action.unlockQ) = [] := by
  induction qs with
  | nil => rfl
  | cons q l ih =>
    unfold actLocks at ih ⊢
    rw [List.map_cons, List.filterMap_cons]
    simp only []
    rw [ih]

theorem actUnlocks_map_unlock (qs : List Nat) :
    actUnlocks (qs.map Action.unlockQ) = qs := by
  induction qs with
  | nil => rfl
  | cons q l ih =>
    unfold actUnlocks at ih ⊢
    rw [List.map_cons, List.filterMap_cons]
    simp only []
    rw [ih]

theorem actUnlocks_map_lock (qs : List Nat) :
    actUnlocks (qs.map Action.lockQ) = [] := by
  induction qs with
  | nil => rfl
  | cons q l ih =>
    unfold actUnlocks at ih ⊢
    rw [List.map_cons, List.filterMap_cons]
    simp only []
    rw [ih]

theorem actLocks_script (c : car_t) : actLocks (script c) = qsOf c := by
  rw [script, actLocks_append, actLocks_append, crossActs, actLocks_append,
    actLocks_append, actLocks_map_lock, actLocks_map_unlock]
  simp [arriveActs, exitActs, actLocks]

theorem actUnlocks_script (c : car_t) :
    actUnlocks (script c) = (qsOf c).reverse := by
  rw [script, actUnlocks_append, actUnlocks_append, crossActs, actUnlocks_append,
    actUnlocks_append, actUnlocks_map_lock, actUnlocks_map_unlock]
  simp [arriveActs, exitActs, actUnlocks]

/-! ## The claims -/

/-- C1: In every reachable state of the system no two vehicles
simultaneously hold the same quadrant lock: each of the four quadrant
mutexes is held by at most one vehicle at every instant, so no two
vehicles ever occupy the same physical quadrant while crossing. -/
theorem spec2_C1 : ∀ (cars : List car_t), ValidCars cars →
    ∀ s, Reachable cars s → ∀ q i j,
      Holds cars s i q → Holds cars s j q → i = j := by
  intro cars hv s hs q i j hiq hjq
  have hInv := reach_inv cars hv s hs
  have h1 : s.quad q = some i := hInv.holds_quad i hiq.1 q hiq.2
  have h2 : s.quad q = some j := hInv.holds_quad j hjq.1 q hjq.2
  rw [h1] at h2
  exact Option.some.inj h2

theorem spec2_C1_witness :
    ValidCars carsW ∧ Holds carsW sW4 0 1 ∧ (0 : Nat) = 0 :=
  ⟨by decide, by decide,
    spec2_C1 carsW (by decide) sW4 reach_sW4 1 0 0 (by decide) (by decide)⟩

/-- C2: Deadlock freedom.  For any manifest of (valid) vehicles run
concurrently with arbitrary interleavings, (a) there is no infinite run:
every execution from the initial state terminates, and (b) a state from
which no thread can step has every vehicle Exited — no reachable state
permanently blocks any vehicle.  Together: along every (maximal) run all
vehicles eventually reach Exited; the ascending-order acquisition makes
a circular wait impossible (`stuck_no_quad`). -/
theorem spec2_C2 : ∀ (cars : List car_t), ValidCars cars →
    (∀ f : Nat → SysState, f 0 = initSt →
      ¬ (∀ k, Step cars (f k) (f (k + 1))))
    ∧ (∀ s, Reachable cars s → (∀ s', ¬ Step cars s s') →
        AllExited cars s) := by
  intro cars hv
  constructor
  · intro f h0 hstep
    have hdec : ∀ k, meas cars (f (k + 1)) < meas cars (f k) := by
      intro k
      obtain ⟨i, hi⟩ := hstep k
      exact meas_step cars _ _ i hi
    have hbound : ∀ k, meas cars (f k) + k ≤ meas cars (f 0) := by
      intro k
      induction k with
      | zero => omega
      | succ k ih =>
        have := hdec k
        omega
    have := hbound (meas cars (f 0) + 1)
    omega
  · intro s hs hnostep
    have hstuck : ∀ i, stepi cars i s = none := by
      intro i
      cases hx : stepi cars i s with
      | none => rfl
      | some s' => exact absurd ⟨i, hx⟩ (hnostep s')
    exact stuck_all_exited cars s (reach_inv cars hv s hs) hstuck

theorem spec2_C2_witness :
    ValidCars cars8
    ∧ ((∀ f : Nat → SysState, f 0 = initSt →
          ¬ (∀ k, Step cars8 (f k) (f (k + 1))))
       ∧ (∀ s, Reachable cars8 s → (∀ s', ¬ Step cars8 s s') →
           AllExited cars8 s)) :=
  ⟨by decide, spec2_C2 cars8 (by decide)⟩

/-- C3: For every set of requested quadrants, the quadrant-lock acquire
operation (`lock_quads`) first sorts the request into ascending order
and acquires the locks in exactly that ascending order, and the release
operation (`unlock_quads`) releases the same locks in exactly
descending order (the reverse of the acquisition order). -/
theorem spec2_C3 : ∀ c : car_t,
    actLocks (script c) = sortQuads (get_quads c.dirs)
    ∧ (actLocks (script c)).Sorted (· ≤ ·)
    ∧ (actLocks (script c)).Perm (get_quads c.dirs)
    ∧ actUnlocks (script c) = (actLocks (script c)).reverse
    ∧ (actUnlocks (script c)).Sorted (· ≥ ·) := by
  intro c
  have hL : actLocks (script c) = sortQuads (get_quads c.dirs) :=
    actLocks_script c
  refine ⟨hL, ?_, ?_, ?_, ?_⟩
  · rw [hL]
    exact sortQuads_sorted _
  · rw [hL]
    exact sortQuads_perm _
  · rw [actUnlocks_script, hL]
    rfl
  · rw [actUnlocks_script]
    exact List.pairwise_reverse.mpr (sortQuads_sorted _)

/-- C4: The turn kind and the ordered quadrant path computed by
`get_turn` and `get_quads` equal exactly the fixed 12-entry table
(quad 0 = NW, 1 = NE, 2 = SE, 3 = SW; `'^'` = from North, `'>'` = from
East, `'v'` = from South, `'<'` = from West; origin = destination is
Straight, the clockwise neighbour is Right, the counter-clockwise
neighbour is Left). -/
theorem spec2_C4 :
    (get_turn ⟨'^', '>'⟩ = .RIGHT_T ∧ get_quads ⟨'^', '>'⟩ = [qNE])
    ∧ (get_turn ⟨'^', '^'⟩ = .STRAIGHT_T ∧ get_quads ⟨'^', '^'⟩ = [qNE, qSE])
    ∧ (get_turn ⟨'^', '<'⟩ = .LEFT_T ∧ get_quads ⟨'^', '<'⟩ = [qNE, qSE, qSW])
    ∧ (get_turn ⟨'>', 'v'⟩ = .RIGHT_T ∧ get_quads ⟨'>', 'v'⟩ = [qSE])
    ∧ (get_turn ⟨'>', '>'⟩ = .STRAIGHT_T ∧ get_quads ⟨'>', '>'⟩ = [qSE, qSW])
    ∧ (get_turn ⟨'>', '^'⟩ = .LEFT_T ∧ get_quads ⟨'>', '^'⟩ = [qSE, qSW, qNW])
    ∧ (get_turn ⟨'v', '<'⟩ = .RIGHT_T ∧ get_quads ⟨'v', '<'⟩ = [qSW])
    ∧ (get_turn ⟨'v', 'v'⟩ = .STRAIGHT_T ∧ get_quads ⟨'v', 'v'⟩ = [qSW, qNW])
    ∧ (get_turn ⟨'v', '>'⟩ = .LEFT_T ∧ get_quads ⟨'v', '>'⟩ = [qSW, qNW, qNE])
    ∧ (get_turn ⟨'<', '^'⟩ = .RIGHT_T ∧ get_quads ⟨'<', '^'⟩ = [qNW])
    ∧ (get_turn ⟨'<', '<'⟩ = .STRAIGHT_T ∧ get_quads ⟨'<', '<'⟩ = [qNW, qNE])
    ∧ (get_turn ⟨'<', 'v'⟩ = .LEFT_T ∧ get_quads ⟨'<', 'v'⟩ = [qNW, qNE, qSE]) := by
  decide

/-- C5: The FlowArbiter Join step (the `turn_lock` critical section of
`ArriveIntersection`) behaves exactly as specified: with the
intersection free (`current_direction = -1`) the car takes ownership
and sets `flow_count[d] = 1`; with the intersection owned by its own
direction it increments `flow_count[d]` and does not block; with the
intersection owned by another direction it parks itself on `turn_cv`
(modifying nothing but its sleep flag, its program counter staying at
the re-check), and while asleep it has no step until woken. -/
theorem spec2_C5 : ∀ (cars : List car_t) (i : Nat) (s : SysState) (c : car_t),
    i < cars.length → carAt cars i = c →
    (script c)[s.pc i]? = some .joinA →
    ((s.sleeping i = false → s.cur = -1 →
        stepi cars i s = some { pcBump s i with
          cur := dIdxI c
          count := Function.update s.count (dIdx c) 1 })
     ∧ (s.sleeping i = false → s.cur ≠ -1 → s.cur = dIdxI c →
        stepi cars i s = some { pcBump s i with
          count := Function.update s.count (dIdx c) (s.count (dIdx c) + 1) })
     ∧ (s.sleeping i = false → s.cur ≠ -1 → s.cur ≠ dIdxI c →
        stepi cars i s = some { s with
          sleeping := Function.update s.sleeping i true })
     ∧ (s.sleeping i = true → stepi cars i s = none)) := by
  intro cars i s c hi hcar ha
  subst hcar
  have hstep := stepi_eq cars s i _ hi ha
  refine ⟨?_, ?_, ?_, ?_⟩
  · intro hsl hcur
    rw [hstep]
    simp only [doAct]
    rw [if_neg (by rw [hsl]; exact fun h => Bool.noConfusion h), if_pos hcur]
  · intro hsl hne hcur
    rw [hstep]
    simp only [doAct]
    rw [if_neg (by rw [hsl]; exact fun h => Bool.noConfusion h), if_neg hne,
      if_pos hcur]
  · intro hsl hne1 hne2
    rw [hstep]
    simp only [doAct]
    rw [if_neg (by rw [hsl]; exact fun h => Bool.noConfusion h), if_neg hne1,
      if_neg hne2]
  · intro hsl
    rw [hstep]
    simp only [doAct]
    rw [if_pos hsl]

theorem spec2_C5_witness :
    (0 < carsW.length ∧ carAt carsW 0 = carW
      ∧ (script carW)[sW2.pc 0]? = some .joinA
      ∧ sW2.sleeping 0 = false ∧ sW2.cur = -1)
    ∧ stepi carsW 0 sW2 = some { pcBump sW2 0 with
        cur := dIdxI carW
        count := Function.update sW2.count (dIdx carW) 1 } :=
  ⟨⟨by decide, by decide, by decide, by decide, by decide⟩,
    (spec2_C5 carsW 0 sW2 carW (by decide) (by decide) (by decide)).1
      (by decide) (by decide)⟩

/-- C6: The FlowArbiter Leave step (the `turn_lock` critical section of
`ExitIntersection`) decrements `flow_count[d]` by one; exactly when the
decremented count is 0 it resets `current_direction` to −1 and wakes
all blocked waiters (`pthread_cond_broadcast`, modelled as clearing
every sleep flag); when the count stays nonzero the owner is unchanged
and no waiter is woken (the sleep flags are untouched). -/
theorem spec2_C6 : ∀ (cars : List car_t) (i : Nat) (s : SysState) (c : car_t),
    i < cars.length → carAt cars i = c →
    (script c)[s.pc i]? = some .leaveA →
    ((s.count (dIdx c) - 1 = 0 →
        stepi cars i s = some { pcBump s i with
          count := Function.update s.count (dIdx c) (s.count (dIdx c) - 1)
          cur := -1
          sleeping := fun _ => false })
     ∧ (s.count (dIdx c) - 1 ≠ 0 →
        stepi cars i s = some { pcBump s i with
          count := Function.update s.count (dIdx c) (s.count (dIdx c) - 1) })) := by
  intro cars i s c hi hcar ha
  subst hcar
  have hstep := stepi_eq cars s i _ hi ha
  constructor
  · intro hz
    rw [hstep]
    simp only [doAct]
    rw [if_pos hz]
  · intro hz
    rw [hstep]
    simp only [doAct]
    rw [if_neg hz]

theorem spec2_C6_witness :
    (0 < carsW.length ∧ carAt carsW 0 = carW
      ∧ (script carW)[sW8.pc 0]? = some .leaveA
      ∧ sW8.count (dIdx carW) - 1 = 0)
    ∧ stepi carsW 0 sW8 = some { pcBump sW8 0 with
        count := Function.update sW8.count (dIdx carW) (sW8.count (dIdx carW) - 1)
        cur := -1
        sleeping := fun _ => false } :=
  ⟨⟨by decide, by decide, by decide, by decide⟩,
    (spec2_C6 carsW 0 sW8 carW (by decide) (by decide) (by decide)).1
      (by decide)⟩

/-- C7: The FlowState invariant holds in every reachable state:
`current_direction` is −1 or exactly one direction index (0–3); a
positive `flow_count[d]` forces `current_direction = d`; every count of
a direction other than the owner is exactly 0 (in particular no count
is ever negative); and the intersection is free exactly when all counts
are 0.  Being stated for every reachable state, it is in particular
preserved by every Join and Leave step. -/
theorem spec2_C7 : ∀ (cars : List car_t), ValidCars cars →
    ∀ s, Reachable cars s →
      (s.cur = -1 ∨ ∃ d : Nat, d < 4 ∧ s.cur = (d : Int))
      ∧ (∀ d : Nat, 0 < s.count d → s.cur = (d : Int))
      ∧ (∀ d : Nat, s.cur ≠ (d : Int) → s.count d = 0)
      ∧ (∀ d : Nat, 0 ≤ s.count d)
      ∧ (s.cur = -1 ↔ ∀ d : Nat, s.count d = 0) := by
  intro cars hv s hs
  have hInv := reach_inv cars hv s hs
  have howner : ∀ d : Nat, 0 < s.count d → s.cur = (d : Int) := by
    intro d hd
    rw [hInv.count_eq d] at hd
    have hpos : 0 < (flowSet cars s d).card := by omega
    obtain ⟨j, hj⟩ := Finset.card_pos.mp hpos
    have hj2 := Finset.mem_filter.mp hj
    have hjn : j < cars.length := Finset.mem_range.mp hj2.1
    have h1 := hInv.flow_owner j hjn hj2.2.2
    have h2 := dIdx_spec _ (hv _ (carAt_mem cars j hjn))
    rw [h1, h2.1, hj2.2.1]
  have hnonneg : ∀ d : Nat, 0 ≤ s.count d := by
    intro d
    rw [hInv.count_eq d]
    omega
  have hzero : ∀ d : Nat, s.cur ≠ (d : Int) → s.count d = 0 := by
    intro d hne
    by_contra hnz
    have hpos : 0 < s.count d := by
      have := hnonneg d
      omega
    exact hne (howner d hpos)
  refine ⟨?_, howner, hzero, hnonneg, ?_, ?_⟩
  · by_cases hc : s.cur = -1
    · exact Or.inl hc
    · obtain ⟨d, h4, hcd, _⟩ := hInv.cur_pos hc
      exact Or.inr ⟨d, h4, hcd⟩
  · intro hcur d
    refine hzero d ?_
    rw [hcur]
    have : (0 : Int) ≤ (d : Int) := by omega
    omega
  · intro hall
    by_contra hne
    obtain ⟨d, _, _, hpos⟩ := hInv.cur_pos hne
    rw [hall d] at hpos
    exact lt_irrefl 0 hpos

theorem spec2_C7_witness :
    ValidCars cars8
    ∧ ((initSt.cur = -1 ∨ ∃ d : Nat, d < 4 ∧ initSt.cur = (d : Int))
       ∧ (∀ d : Nat, 0 < initSt.count d → initSt.cur = (d : Int))
       ∧ (∀ d : Nat, initSt.cur ≠ (d : Int) → initSt.count d = 0)
       ∧ (∀ d : Nat, 0 ≤ initSt.count d)
       ∧ (initSt.cur = -1 ↔ ∀ d : Nat, initSt.count d = 0)) :=
  ⟨by decide, spec2_C7 cars8 (by decide) initSt Relation.ReflTransGen.refl⟩

/-- C8 counterexample: on an invalid direction pair the program does
NOT report any startup failure: `get_turn` falls through to
`STRAIGHT_T`, `dir_index` produces the sentinel −1 (which
`ArriveIntersection` would use as an array subscript), `get_quads`
returns the empty path, and the vehicle's first protocol step runs
normally instead of aborting. -/
theorem spec2_C8_cex :
    get_turn ⟨'x', 'y'⟩ = .STRAIGHT_T
    ∧ dir_index 'x' = -1
    ∧ get_quads ⟨'x', 'y'⟩ = []
    ∧ (stepi [{ cid := 9, dirs := ⟨'x', 'y'⟩, index := 0 }] 0 initSt).isSome
      = true := by
  decide

set_option maxHeartbeats 1600000 in
/-- C8 (amended): the turn classifier is pure and total; on invalid
direction input it does not fail but returns `STRAIGHT_T` (the
fall-through default), and `dir_index` returns the sentinel −1, which
the locking logic would consume unvalidated — there is no startup-time
abort.  The hard-coded manifest, however, contains only valid
directions, so the invalid path is never exercised in this program. -/
theorem spec2_C8 :
    (∀ o t : Char, ¬ validDir o → get_turn ⟨o, t⟩ = .STRAIGHT_T)
    ∧ (∀ o t : Char, ¬ validDir t → get_turn ⟨o, t⟩ = .STRAIGHT_T)
    ∧ (∀ ch : Char, ¬ validDir ch → dir_index ch = -1)
    ∧ ValidCars cars8 := by
  refine ⟨?_, ?_, ?_, by decide⟩
  · intro o t ho
    rw [validDir_iff] at ho
    push_neg at ho
    obtain ⟨n1, n2, n3, n4⟩ := ho
    unfold get_turn
    dsimp only
    split_ifs with h1 h2 h3 h4 h5 h6 h7 h8 h9
    · rfl
    · exact absurd h2.1 n1
    · exact absurd h3.1 n1
    · exact absurd h4.1 n3
    · exact absurd h5.1 n3
    · exact absurd h6.1 n2
    · exact absurd h7.1 n2
    · exact absurd h8.1 n4
    · exact absurd h9.1 n4
    · rfl
  · intro o t ht
    rw [validDir_iff] at ht
    push_neg at ht
    obtain ⟨n1, n2, n3, n4⟩ := ht
    unfold get_turn
    dsimp only
    split_ifs with h1 h2 h3 h4 h5 h6 h7 h8 h9
    · rfl
    · exact absurd h2.2 n2
    · exact absurd h3.2 n4
    · exact absurd h4.2 n4
    · exact absurd h5.2 n2
    · exact absurd h6.2 n3
    · exact absurd h7.2 n1
    · exact absurd h8.2 n1
    · exact absurd h9.2 n3
    · rfl
  · intro ch hch
    unfold validDir at hch
    push_neg at hch
    exact hch

theorem spec2_C8_witness :
    ¬ validDir 'x'
    ∧ get_turn ⟨'x', 'y'⟩ = .STRAIGHT_T
    ∧ dir_index 'x' = -1
    ∧ ValidCars cars8 :=
  ⟨by decide, spec2_C8.1 'x' 'y' (by decide),
    spec2_C8.2.2.1 'x' (by decide), spec2_C8.2.2.2⟩

/-- C9: The crossing duration is a fixed function of turn kind — 5 s
for Left, 4 s for Straight, 3 s for Right, so Right is strictly fastest
and Left strictly slowest — and the quadrant locks are held for exactly
that duration: the script acquires every lock immediately before the
single spin action and releases them immediately after it, and the full
lock set is held across exactly the spin step. -/
theorem spec2_C9 :
    crossTime .RIGHT_T = 3 ∧ crossTime .STRAIGHT_T = 4 ∧ crossTime .LEFT_T = 5
    ∧ crossTime .RIGHT_T < crossTime .STRAIGHT_T
    ∧ crossTime .STRAIGHT_T < crossTime .LEFT_T
    ∧ ∀ c : car_t,
        script c = [.sleepA, .holWait, .joinA]
            ++ (qsOf c).map Action.lockQ
            ++ [.spinA (crossTime (get_turn c.dirs))]
            ++ (qsOf c).reverse.map Action.unlockQ
            ++ [.leaveA, .holPost]
        ∧ locksHeld c ((qsOf c).length + 3) = qsOf c
        ∧ locksHeld c ((qsOf c).length + 4) = qsOf c := by
  refine ⟨rfl, rfl, rfl, by decide, by decide, ?_⟩
  intro c
  refine ⟨by simp [script, arriveActs, crossActs, exitActs], ?_, ?_⟩
  · unfold locksHeld
    rw [(heldCount_spin (qsOf c).length).1]
    exact List.take_length _
  · unfold locksHeld
    rw [(heldCount_spin (qsOf c).length).2]
    exact List.take_length _

/-- C10: A vehicle whose origin character is not one of `'^'`, `'>'`,
`'v'`, `'<'` gets the empty quadrant path (count 0) from `get_quads`,
so its Cross phase acquires and releases no quadrant locks at all — its
script still runs every phase (it is not rejected), crossing without
any quadrant mutual exclusion. -/
theorem spec2_C10 : ∀ o t : Char,
    o ≠ '^' → o ≠ '>' → o ≠ 'v' → o ≠ '<' →
    get_quads ⟨o, t⟩ = []
    ∧ ∀ cid idx : Nat,
        script { cid := cid, dirs := ⟨o, t⟩, index := idx }
          = [.sleepA, .holWait, .joinA,
             .spinA (crossTime (get_turn ⟨o, t⟩)), .leaveA, .holPost]
        ∧ actLocks (script { cid := cid, dirs := ⟨o, t⟩, index := idx }) = []
        ∧ actUnlocks (script { cid := cid, dirs := ⟨o, t⟩, index := idx }) = [] := by
  intro o t h1 h2 h3 h4
  have hq : get_quads ⟨o, t⟩ = [] := by
    unfold get_quads
    split_ifs <;> simp_all
  refine ⟨hq, ?_⟩
  intro cid idx
  have hqs : qsOf { cid := cid, dirs := ⟨o, t⟩, index := idx } = [] := by
    unfold qsOf sortQuads
    rw [show ({ cid := cid, dirs := ⟨o, t⟩, index := idx } : car_t).dirs
        = ⟨o, t⟩ from rfl, hq]
    rfl
  have hscript : script { cid := cid, dirs := ⟨o, t⟩, index := idx }
      = [.sleepA, .holWait, .joinA,
         .spinA (crossTime (get_turn ⟨o, t⟩)), .leaveA, .holPost] := by
    rw [script, crossActs, hqs]
    rfl
  refine ⟨hscript, ?_, ?_⟩
  · rw [hscript]
    rfl
  · rw [hscript]
    rfl

theorem spec2_C10_witness :
    ('x' ≠ '^' ∧ 'x' ≠ '>' ∧ 'x' ≠ 'v' ∧ 'x' ≠ '<')
    ∧ get_quads ⟨'x', 'y'⟩ = []
    ∧ script { cid := 9, dirs := ⟨'x', 'y'⟩, index := 0 }
        = [.sleepA, .holWait, .joinA,
           .spinA (crossTime (get_turn ⟨'x', 'y'⟩)), .leaveA, .holPost]
    ∧ actLocks (script { cid := 9, dirs := ⟨'x', 'y'⟩, index := 0 }) = []
    ∧ actUnlocks (script { cid := 9, dirs := ⟨'x', 'y'⟩, index := 0 }) = [] := by
  have h := spec2_C10 'x' 'y' (by decide) (by decide) (by decide) (by decide)
  exact ⟨⟨by decide, by decide, by decide, by decide⟩, h.1,
    (h.2 9 0).1, (h.2 9 0).2.1, (h.2 9 0).2.2⟩

end TC
